import Mathlib

/-!
Verification development for the fubon_scraper package
(`fubon_scraper/extractors.py`, `fubon_scraper/scraper.py`).

Text is modelled as `List Char`.  Python regular expressions used by the
code are modelled as direct scanners with the same matching semantics
(documented at each definition).  The character class `\s` is modelled by
the common whitespace characters (ASCII whitespace, NBSP, ideographic
space); `\d` is modelled by ASCII plus fullwidth decimal digits (the two
digit families that occur on the scraped pages).

Library-driven pieces (BeautifulSoup DOM walks, pandas table parsing) are
taken as explicit functional parameters: the functions that consume their
results are embedded faithfully, and those parameters are instantiated in
concrete theorems with what the library returns on the concrete input.
-/

set_option maxRecDepth 4000

abbrev Str : Type := List Char

abbrev Pair : Type := Str × Str

abbrev DF : Type := List Pair

/-- Python `\s` (whitespace) restricted to the characters that occur here:
ASCII whitespace, NBSP and the ideographic space. -/
def isWS (c : Char) : Bool :=
  c = ' ' || c = '\t' || c = '\n' || c = '\r' || c = '\x0b' || c = '\x0c' ||
  c = ' ' || c = '　'

def isAsciiDigit (c : Char) : Bool := '0' ≤ c && c ≤ '9'

/-- Fullwidth decimal digits Ｕ+FF10 .. U+FF19. -/
def isFWDigit (c : Char) : Bool := '０' ≤ c && c ≤ '９'

/-- Model of Python `\d`: ASCII or fullwidth decimal digit. -/
def isDigitPy (c : Char) : Bool := isAsciiDigit c || isFWDigit c

def isAsciiUpper (c : Char) : Bool := 'A' ≤ c && c ≤ 'Z'

def isAsciiLower (c : Char) : Bool := 'a' ≤ c && c ≤ 'z'

def isAsciiLetter (c : Char) : Bool := isAsciiUpper c || isAsciiLower c

def isFWUpper (c : Char) : Bool := 'Ａ' ≤ c && c ≤ 'Ｚ'

def isFWLower (c : Char) : Bool := 'ａ' ≤ c && c ≤ 'ｚ'

/-- The letter class `[A-Za-zＡ-Ｚａ-ｚ]` used by the code/name patterns. -/
def isLetterPy (c : Char) : Bool := isAsciiLetter c || isFWUpper c || isFWLower c

/-- The lookaround class `[0-9A-Za-zＡ-Ｚａ-ｚ]` of `RE_CODE_NAME`. -/
def isAlnumLA (c : Char) : Bool := isAsciiDigit c || isAsciiLetter c || isFWUpper c || isFWLower c

/-- CJK ideographs U+4E00 .. U+9FFF. -/
def isCJK (c : Char) : Bool := '一' ≤ c && c ≤ '鿿'

/-- The name charset `[一-鿿A-Za-z0-9\-\._]` of `RE_CODE_NAME`. -/
def isNameChar (c : Char) : Bool :=
  isCJK c || isAsciiLetter c || isAsciiDigit c || c = '-' || c = '.' || c = '_'

/-- Model of `unicodedata.normalize("NFKC", ·)` restricted to one character,
for the character families relevant here: fullwidth alphanumerics map to
their halfwidth counterparts, the ideographic space maps to a space, and
every other character is fixed. -/
def nfkcChar (c : Char) : Char :=
  if isFWDigit c then Char.ofNat (c.toNat - 0xFF10 + 0x30)
  else if isFWUpper c then Char.ofNat (c.toNat - 0xFF21 + 0x41)
  else if isFWLower c then Char.ofNat (c.toNat - 0xFF41 + 0x61)
  else if c = '　' then ' '
  else c

def nfkc (s : Str) : Str := s.map nfkcChar

/-- Python `str.upper` restricted to ASCII (the only letters present after
NFKC normalization). -/
def pyUpperChar (c : Char) : Char :=
  if isAsciiLower c then Char.ofNat (c.toNat - 32) else c

def upperStr (s : Str) : Str := s.map pyUpperChar

def pyLowerChar (c : Char) : Char :=
  if isAsciiUpper c then Char.ofNat (c.toNat + 32) else c

/-- Model of `re.sub(r"\s+", " ", s)`: each maximal whitespace run becomes a
single space.  The Boolean argument records whether the previous character
was whitespace. -/
def collapseAux : Bool → Str → Str
  | _, [] => []
  | prevWS, c :: rest =>
    if isWS c then
      if prevWS then collapseAux true rest else ' ' :: collapseAux true rest
    else c :: collapseAux false rest

def collapseWS (s : Str) : Str := collapseAux false s

/-- Model of `re.sub(r"\s+", "", s)`: all whitespace removed. -/
def removeWS (s : Str) : Str := s.filter (fun c => !isWS c)

/-- Model of Python `str.strip()`. -/
def pyStrip (s : Str) : Str := ((s.dropWhile isWS).reverse.dropWhile isWS).reverse

/-- Model of `str.replace("*", "")`. -/
def removeStar (s : Str) : Str := s.filter (fun c => c ≠ '*')

/-- Whether `pat` is an initial segment of `s`. -/
def isStartOf : Str → Str → Bool
  | [], _ => true
  | _ :: _, [] => false
  | a :: as, b :: bs => a = b && isStartOf as bs

/-- Case-insensitive variant (for `re.IGNORECASE` literals). -/
def isStartOfCI : Str → Str → Bool
  | [], _ => true
  | _ :: _, [] => false
  | a :: as, b :: bs => pyLowerChar a = pyLowerChar b && isStartOfCI as bs

/-- First index `i` such that the suffix of `s` starting at `i` satisfies
`p` (the scan also reaches the empty suffix). -/
def scanFirst (p : Str → Bool) : Str → Option Nat
  | [] => if p [] then some 0 else none
  | c :: t => if p (c :: t) then some 0 else (scanFirst p t).map (· + 1)

/-- Model of `pattern.str.extract(RE_CODE)` with
`RE_CODE = (?<!\d)(\d{4,6})(?!\d)`: the first maximal digit run of length
4 to 6 (runs of other lengths are skipped whole, exactly as the
lookbehind/lookahead pair forces).  The Boolean argument records whether
the previous character was a digit. -/
def reCodeFirstAux : Bool → Str → Option Str
  | _, [] => none
  | prevD, c :: rest =>
    if !prevD && isDigitPy c then
      if 4 ≤ ((c :: rest).takeWhile isDigitPy).length &&
          ((c :: rest).takeWhile isDigitPy).length ≤ 6 then
        some ((c :: rest).takeWhile isDigitPy)
      else reCodeFirstAux (isDigitPy c) rest
    else reCodeFirstAux (isDigitPy c) rest

def reCodeFirst (s : Str) : Option Str := reCodeFirstAux false s

/-- Greedy match of `\d{4,6}[A-Za-zＡ-Ｚａ-ｚ]?` of exactly `l` leading
digits followed immediately by a quote (the `'` that closes the code in
the `GenLink2stk` patterns).  Returns the code and the rest after the
quote.  The optional letter is tried greedily first, as the regex engine
does. -/
def codeAt (l : Nat) (s : Str) : Option (Str × Str) :=
  let ds := s.take l
  match s.drop l with
  | [] => none
  | c1 :: r1 =>
    if isLetterPy c1 then
      match r1 with
      | [] => none
      | q :: r2 => if q = '\'' then some (ds ++ [c1], r2) else none
    else if c1 = '\'' then some (ds, r1) else none

/-- Try digit counts `l, l-1, …, 4` (greedy backtracking of `\d{4,6}`). -/
def tryCodeLens : Nat → Str → Option (Str × Str)
  | 0, _ => none
  | Nat.succ l, s =>
    if l + 1 < 4 then none
    else
      match codeAt (l + 1) s with
      | some r => some r
      | none => tryCodeLens l s

/-- Model of the tail `\s*,\s*'([^']+)'\)` of the call patterns: returns
the quoted name and the rest after the closing parenthesis. -/
def parseAfterCode (s : Str) : Option (Str × Str) :=
  match s.dropWhile isWS with
  | ',' :: r1 =>
    (match r1.dropWhile isWS with
     | '\'' :: r2 =>
       let name := r2.takeWhile (fun c => c ≠ '\'')
       if name = [] then none
       else
         match r2.drop name.length with
         | '\'' :: ')' :: r3 => some (name, r3)
         | _ => none
     | _ => none)
  | _ => none

/-- The lazy prefix `[^']*?` of the call patterns: starting right after the
opening `'`, advance one character at a time (never across a quote) until
`code'` followed by the name tail matches.  Returns `(code, name, rest)`. -/
def tryCallTail : Str → Option (Str × Str × Str)
  | [] => none
  | c :: rest =>
    match tryCodeLens (min ((c :: rest).takeWhile isDigitPy).length 6) (c :: rest) with
    | some (code, afterQuote) =>
      (match parseAfterCode afterQuote with
       | some (name, r) => some (code, name, r)
       | none => if c = '\'' then none else tryCallTail rest)
    | none => if c = '\'' then none else tryCallTail rest

/-- Model of `pattern.findall` for the two call patterns
(`RE_CODEJS = GenLink2stk\('[^']*?(code)'\s*,\s*'([^']+)'\)`, and the ZGB
variant with literal `('`): scan left to right for the literal, attempt
the tail, continue after the end of a successful match, else advance one
position.  `ci` selects case-insensitive literal comparison
(`re.IGNORECASE`).  `fuel` only bounds the recursion; it is instantiated
with the length of the scanned text, which the scan never exceeds. -/
def findallCallsAux (lit : Str) (ci : Bool) : Nat → Str → List Pair
  | 0, _ => []
  | _, [] => []
  | Nat.succ fuel, c :: rest =>
    let litHere := if ci then isStartOfCI lit (c :: rest) else isStartOf lit (c :: rest)
    if litHere then
      match tryCallTail ((c :: rest).drop lit.length) with
      | some (code, name, r) => (code, name) :: findallCallsAux lit ci fuel r
      | none => findallCallsAux lit ci fuel rest
    else findallCallsAux lit ci fuel rest

def findallCalls (lit : Str) (ci : Bool) (s : Str) : List Pair :=
  findallCallsAux lit ci s.length s

/-- One attempt of `RE_CODE_NAME` with the code starting at the head of
`s` (the caller has already checked the lookbehind): greedy 4-6 digit run,
optional letter with the `(?![0-9A-Za-zＡ-Ｚａ-ｚ])` lookahead, separator
run `\s*[，,\s]*\s*`, then a nonempty name-charset run.  Returns the pair
and the rest after the match. -/
def rcnTryAt (s : Str) : Option (Pair × Str) :=
  let run := s.takeWhile isDigitPy
  if 4 ≤ run.length && run.length ≤ 6 then
    let rest := s.drop run.length
    let step2 : Option (Str × Str) :=
      match rest with
      | [] => some (run, [])
      | c :: r =>
        if isLetterPy c then
          match r with
          | [] => some (run ++ [c], [])
          | d :: _ => if isAlnumLA d then none else some (run ++ [c], r)
        else if isAlnumLA c then none else some (run, rest)
    match step2 with
    | none => none
    | some (code, rest2) =>
      let rest3 := rest2.dropWhile (fun c => isWS c || c = ',' || c = '，')
      let name := rest3.takeWhile isNameChar
      if name = [] then none else some ((code, name), rest3.drop name.length)
  else none

/-- Model of `RE_CODE_NAME.finditer`: scan left to right, tracking the
previous character for the lookbehind, continuing after each match. -/
def rcnFindallAux : Nat → Option Char → Str → List Pair
  | 0, _, _ => []
  | _, _, [] => []
  | Nat.succ fuel, prev, c :: rest =>
    let lbOK := match prev with
      | none => true
      | some p => !isAlnumLA p
    if lbOK then
      match rcnTryAt (c :: rest) with
      | some ((code, name), r) =>
        (code, name) :: rcnFindallAux fuel (some (name.getLastD c)) r
      | none => rcnFindallAux fuel (some c) rest
    else rcnFindallAux fuel (some c) rest

def rcnFindall (s : Str) : List Pair := rcnFindallAux s.length none s

/-- Model of `RE_CODE_NAME.search`: first match only. -/
def rcnSearchAux : Nat → Option Char → Str → Option Pair
  | 0, _, _ => none
  | _, _, [] => none
  | Nat.succ fuel, prev, c :: rest =>
    let lbOK := match prev with
      | none => true
      | some p => !isAlnumLA p
    if lbOK then
      match rcnTryAt (c :: rest) with
      | some (pr, _) => some pr
      | none => rcnSearchAux fuel (some c) rest
    else rcnSearchAux fuel (some c) rest

def rcnSearch (s : Str) : Option Pair := rcnSearchAux s.length none s

/-! Extractors (`fubon_scraper/extractors.py`). -/

/-- Model of `DataFrame.drop_duplicates()` on two-column rows: keep the
first occurrence of each exact `(code, name)` row. -/
def dropDupAux (seen : DF) : DF → DF
  | [] => []
  | p :: rest =>
    if p ∈ seen then dropDupAux seen rest else p :: dropDupAux (p :: seen) rest

def dropDupRows (df : DF) : DF := dropDupAux [] df

/-- The literal of `RE_CODEJS` (matched case-insensitively). -/
def genLit : Str := "GenLink2stk('".toList

/-- Embedding of `extract_from_js`: `RE_CODEJS.findall`, keep rows whose
stripped name is nonempty (storing the stripped name), `None` when nothing
is left, else the deduplicated rows. -/
def extract_from_js (html : Str) : Option DF :=
  let items := findallCalls genLit true html
  if items = [] then none
  else
    let rows := items.filterMap
      (fun p => if pyStrip p.2 = [] then none else some (p.1, pyStrip p.2))
    if rows = [] then none else some (dropDupRows rows)

/-- Post-processing applied by `parse_codes_generic` to the winning
strategy's frame: re-extract the code with `RE_CODE` (dropping rows with
no match, as `dropna` does), remove all whitespace from the name, and drop
duplicate rows. -/
def genericPost (df : DF) : DF :=
  dropDupRows (df.filterMap
    (fun p => (reCodeFirst p.1).map (fun c => (c, removeWS p.2))))

def errGeneric : Str := "無法抽出代號/名稱 (generic)".toList

/-- The `first non-empty wins` step of the strategy loop in
`parse_codes_generic`: `if df is not None and len(df) > 0`. -/
def tryStrat (res : Option DF) (next : Except Str DF) : Except Str DF :=
  match res with
  | some df => if df = [] then next else Except.ok (genericPost df)
  | none => next

/-- Embedding of `parse_codes_generic`.  `extract_from_onclick` and
`extract_from_tables` walk the BeautifulSoup DOM / pandas tables and are
taken as parameters `oc` and `tb`; the strategies are tried in the source
order onclick, js, tables. -/
def parse_codes_generic (oc tb : Str → Option DF) (html : Str) : Except Str DF :=
  tryStrat (oc html)
    (tryStrat (extract_from_js html)
      (tryStrat (tb html) (Except.error errGeneric)))

/-! Region segmentation and the ZGB side extractor. -/

def strBuy : Str := "買超".toList

def strSell : Str := "賣超".toList

/-- The exact marker `>side<`. -/
def exactMarker (side : Str) : Str := '>' :: (side ++ ['<'])

/-- Whether the whitespace-tolerant marker regex `> *side *<` matches at
the head of `s` (after `collapseWS`, whitespace is single spaces, and the
pattern's `' '*` classes accept any number of them). -/
def tolerantAt (side : Str) (s : Str) : Bool :=
  match s with
  | '>' :: rest =>
    let r1 := rest.dropWhile (fun c => c = ' ')
    if isStartOf side r1 then
      match (r1.drop side.length).dropWhile (fun c => c = ' ') with
      | '<' :: _ => true
      | _ => false
    else false
  | _ => false

def errSeg (side : Str) : Str := "找不到『".toList ++ side ++ "』區塊標記".toList

def errZgbEmpty (side : Str) : Str := side ++ "表沒有解析到任何股票".toList

/-- Embedding of the segmentation part of `extract_zgb_side` (lines
116-129): collapse whitespace, find the exact marker `>side<`, falling
back to the whitespace-tolerant regex; fail when neither occurs; cut at
the next exact occurrence of the opposite marker after the start, or run
to the end of the document. -/
def segmentZgb (html side : Str) : Except Str Str :=
  match (match scanFirst (fun r => isStartOf (exactMarker side) r) (collapseWS html) with
         | some i => some i
         | none => scanFirst (tolerantAt side) (collapseWS html)) with
  | none => Except.error (errSeg side)
  | some start =>
    match (scanFirst (fun r => isStartOf
            (exactMarker (if side = strBuy then strSell else strBuy)) r)
            ((collapseWS html).drop (start + 1))).map (· + (start + 1)) with
    | some e => Except.ok (((collapseWS html).drop start).take (e - start))
    | none => Except.ok ((collapseWS html).drop start)

/-- The normalized code of the ZGB cleanup: NFKC, whitespace removal,
uppercase. -/
def normCode (code : Str) : Str := upperStr (removeWS (nfkc code))

/-- The normalized name of the ZGB cleanup: asterisks removed, stripped. -/
def normName (name : Str) : Str := pyStrip (removeStar name)

/-- Model of `re.fullmatch(r"\d{4,6}[A-Za-z]?", code)`. -/
def fullmatchCode (s : Str) : Bool :=
  (4 ≤ (s.takeWhile isDigitPy).length && (s.takeWhile isDigitPy).length ≤ 6) &&
    (match s.drop (s.takeWhile isDigitPy).length with
     | [] => true
     | [c] => isAsciiLetter c
     | _ => false)

/-- The per-pair cleanup of `extract_zgb_side` (lines 170-179): normalize
the code, reject when it does not fully match the code pattern, clean the
name. -/
def normalizeRec (code name : Str) : Option Pair :=
  if fullmatchCode (normCode code) then some (normCode code, normName name)
  else none

/-- The dedup loop of the ZGB cleanup: first occurrence of each normalized
code wins, later ones are dropped (`seen` accumulates emitted codes). -/
def zgbCleanAux (seen : List Str) : List Pair → List Pair
  | [] => []
  | p :: rest =>
    match normalizeRec p.1 p.2 with
    | none => zgbCleanAux seen rest
    | some q =>
      if q.1 ∈ seen then zgbCleanAux seen rest
      else q :: zgbCleanAux (q.1 :: seen) rest

def zgbClean (rows : List Pair) : List Pair := zgbCleanAux [] rows

/-- The ZGB call-pattern literal `('`. -/
def callLit : Str := "('".toList

/-- Method (1) of `extract_zgb_side`: the JS call pattern
`\('([^']*?(\d{4,6}[A-Za-zＡ-Ｚａ-ｚ]?))'\s*,\s*'([^']+)'\)` over the raw
segment, names whitespace-stripped. -/
def zgbMethod1 (segment : Str) : List Pair :=
  (findallCalls callLit false segment).map (fun p => (p.1, removeWS p.2))

/-- One anchor text of method (2): `re.match(r"^(\d{4,6}[A-Za-zＡ-Ｚａ-ｚ]?)\s*(.+)$", text)`.
The `\s*` is greedy with backtracking against the nonempty `(.+)$`
(which cannot cross a newline; `$` also accepts a position before a
string-final newline), and the digit count backtracks when the rest would
be empty. -/
def zgbAMatchName (rest : Str) : Option Str :=
  let m := (rest.takeWhile isWS).length
  let rec go : Nat → Option Str
    | 0 =>
      let u := rest
      if u ≠ [] && !u.contains '\n' then some u
      else if u.getLastD ' ' = '\n' && u.dropLast ≠ [] && !u.dropLast.contains '\n' then
        some u.dropLast
      else none
    | Nat.succ j =>
      let u := rest.drop (j + 1)
      if u ≠ [] && !u.contains '\n' then some u
      else if u.getLastD ' ' = '\n' && u.dropLast ≠ [] && !u.dropLast.contains '\n' then
        some u.dropLast
      else go j
  if rest = [] then none else go (min m (rest.length - 1))

/-- Digit-count backtracking for the anchor-text match: try `l` digits
with greedy optional letter, then fewer digits. -/
def zgbAMatchLens : Nat → Str → Option Pair
  | 0, _ => none
  | Nat.succ l, s =>
    if l + 1 < 4 then none
    else
      let ds := s.take (l + 1)
      let rest := s.drop (l + 1)
      let withLetter : Option Pair :=
        match rest with
        | c :: r =>
          if isLetterPy c then
            (zgbAMatchName r).map (fun nm => (ds ++ [c], nm))
          else none
        | [] => none
      match withLetter with
      | some pr => some pr
      | none =>
        match (zgbAMatchName rest).map (fun nm => (ds, nm)) with
        | some pr => some pr
        | none => zgbAMatchLens l s

def zgbAMatch (text : Str) : Option Pair :=
  let run := text.takeWhile isDigitPy
  zgbAMatchLens (min run.length 6) text

def nbspToSpace (c : Char) : Char := if c = ' ' then ' ' else c

/-- Method (2) of `extract_zgb_side`: anchor texts (a parameter, produced
by `seg_soup.find_all("a")` with `get_text(" ", strip=True)`), NBSP
replaced by a space, matched against the anchored code/name pattern,
names whitespace-stripped. -/
def zgbMethod2 (aTexts : List Str) : List Pair :=
  aTexts.filterMap (fun t =>
    (zgbAMatch (t.map nbspToSpace)).map (fun p => (p.1, removeWS p.2)))

/-- Method (3) of `extract_zgb_side`: per table row (a parameter, the
space-joined cell texts produced by pandas), the first `RE_CODE_NAME`
match, names whitespace-stripped. -/
def zgbMethod3 (tableRowTexts : List Str) : List Pair :=
  tableRowTexts.filterMap (fun t =>
    (rcnSearch t).map (fun p => (p.1, removeWS p.2)))

/-- Method (4) of `extract_zgb_side`: all `RE_CODE_NAME` matches over the
plain text of the segment (a parameter, `seg_soup.get_text(" ", strip=True)`),
names whitespace-stripped. -/
def zgbMethod4 (plain : Str) : List Pair :=
  (rcnFindall plain).map (fun p => (p.1, removeWS p.2))

/-- Embedding of `extract_zgb_side`: segment, run all four methods,
concatenate their rows in method order, fail when nothing was parsed,
else clean and dedup.  `aTextsOf`, `tableRowsOf` and `plainTextOf` are the
BeautifulSoup/pandas views of the segment, taken as parameters. -/
def extract_zgb_side (aTextsOf tableRowsOf : Str → List Str)
    (plainTextOf : Str → Str) (html side : Str) : Except Str DF :=
  match segmentZgb html side with
  | Except.error e => Except.error e
  | Except.ok segment =>
    let rows := zgbMethod1 segment ++ zgbMethod2 (aTextsOf segment) ++
      zgbMethod3 (tableRowsOf segment) ++ zgbMethod4 (plainTextOf segment)
    if rows = [] then Except.error (errZgbEmpty side)
    else Except.ok (zgbClean rows)

/-! Intersection engine and aggregation (`fubon_scraper/scraper.py`). -/

/-- The code column of a frame (`df["代號"]`). -/
def codesOf (df : DF) : List Str := df.map Prod.fst

/-- Lookup in the insertion-ordered dictionary model. -/
def nmLookup : List Pair → Str → Option Str
  | [], _ => none
  | p :: r, c => if p.1 = c then some p.2 else nmLookup r c

/-- One step of the `name_map` loop of `_nway_intersection`: insert the
stripped name for a code of the intersection that has no entry yet and a
nonempty stripped name. -/
def nmStep (inter : List Str) (m : List Pair) (p : Pair) : List Pair :=
  let nm := pyStrip p.2
  if p.1 ∈ inter ∧ nmLookup m p.1 = none ∧ nm ≠ [] then m ++ [(p.1, nm)] else m

/-- The `name_map` of `_nway_intersection`, built by iterating the frames
in order and their rows in order. -/
def nameMapBuild (dfs : List DF) (inter : List Str) : List Pair :=
  dfs.foldl (fun m df => df.foldl (nmStep inter) m) []

/-- Lexicographic string comparison (Python `sorted` on strings). -/
def strLe : Str → Str → Bool
  | [], _ => true
  | _ :: _, [] => false
  | a :: as, b :: bs => if a = b then strLe as bs else decide (a < b)

def insertSorted (c : Str) : List Str → List Str
  | [] => [c]
  | x :: r => if strLe c x then c :: x :: r else x :: insertSorted c r

def sortStr (l : List Str) : List Str := l.foldr insertSorted []

/-- Embedding of `_nway_intersection`: code sets of the nonempty member
frames (empty frames are skipped), their intersection (a single set is its
own intersection), names resolved through `name_map`, rows sorted by code
with `""` for unresolved names. -/
def nway_intersection (dfs : List DF) : DF :=
  match (dfs.filter (fun d => decide (d ≠ []))).map (fun d => (codesOf d).dedup) with
  | [] => []
  | s :: rest =>
    let inter := s.filter (fun c => decide (∀ t ∈ rest, c ∈ t))
    let nm := nameMapBuild dfs inter
    (sortStr inter).map (fun c => (c, (nmLookup nm c).getD []))

/-- The keep/drop loop of `_assert_membership`, in row order. -/
def assertAux (pass : Pair → Bool) : DF → DF × List Str
  | [] => ([], [])
  | r :: rest =>
    let kd := assertAux pass rest
    if pass r then (r :: kd.1, kd.2) else (kd.1, r.1 :: kd.2)

/-- Embedding of `_assert_membership`: keep the rows whose code is in
every parent's code set; the second component is the list of dropped codes
(nonempty exactly when a `[FIX]` membership violation is reported). -/
def assert_membership (inter_df : DF) (parents : List DF) : DF × List Str :=
  assertAux (fun r => decide (∀ p ∈ parents, r.1 ∈ codesOf p)) inter_df

/-- An intersection rule from `config.INTERSECTION_RULES`. -/
structure Rule where
  name : Str
  groups : List Str
deriving DecidableEq

/-- The last value bound to a key by a sequence of dict assignments. -/
def lastBinding {α : Type} : List (Str × α) → Str → Option α
  | [], _ => none
  | (k, v) :: rest, c =>
    match lastBinding rest c with
    | some w => some w
    | none => if k = c then some v else none

/-- The `data` dict of `run_scraper` after the scraping loop: each target
name maps to its scraped frame, or to the empty frame when scraping threw
(the `except` branch); later targets with the same name overwrite earlier
ones; absent names resolve to the empty frame (`data.get(key, empty)`). -/
def buildData (results : List (Str × Except Str DF)) (k : Str) : DF :=
  match lastBinding results k with
  | some (Except.ok df) => df
  | some (Except.error _) => []
  | none => []

/-- One rule evaluation of `run_scraper`: resolve parents, intersect,
validate membership.  Second component: the dropped (reported) codes. -/
def ruleOverlap (data : Str → DF) (r : Rule) : DF × List Str :=
  let parents := r.groups.map data
  assert_membership (nway_intersection parents) parents

/-- Python dict insertion: overwrite the value when the key exists,
else append. -/
def dictInsert (d : List (Str × DF)) (k : Str) (v : DF) : List (Str × DF) :=
  if d.any (fun p => p.1 = k) then d.map (fun p => if p.1 = k then (k, v) else p)
  else d ++ [(k, v)]

def dictLookup : List (Str × DF) → Str → Option DF
  | [], _ => none
  | p :: r, c => if p.1 = c then some p.2 else dictLookup r c

/-- The `overlaps` dict of `run_scraper` on the configured-rules path: one
insertion per rule, in rule order. -/
def runOverlaps (data : Str → DF) (rules : List Rule) : List (Str × DF) :=
  rules.foldl (fun acc r => dictInsert acc r.name (ruleOverlap data r).1) []

/-- First-of-two option combinator (dict lookup through an append). -/
def optFirst (a b : Option Str) : Option Str :=
  match a with
  | some v => some v
  | none => b

/-! Specification-side definitions (used to state the claims; these follow
the spec's words, to be compared with the embedded code). -/

/-- Name resolution as the spec words it: scan the member groups' rows in
the given order and take the first nonempty (stripped) name for the code. -/
def resolveName : List Pair → Str → Option Str
  | [], _ => none
  | p :: rest, c =>
    if p.1 = c ∧ pyStrip p.2 ≠ [] then some (pyStrip p.2) else resolveName rest c

/-- Spec's record invariant for the dual-sided path: code fully matches
`^\d{4,6}[A-Za-z]?$` over halfwidth (ASCII) digits with an uppercase
letter suffix. -/
def fullmatchCodeAscii (s : Str) : Bool :=
  (4 ≤ (s.takeWhile isAsciiDigit).length && (s.takeWhile isAsciiDigit).length ≤ 6) &&
    (match s.drop (s.takeWhile isAsciiDigit).length with
     | [] => true
     | [c] => isAsciiUpper c
     | _ => false)

def wsFree (s : Str) : Prop := ∀ c ∈ s, isWS c = false

def starFree (s : Str) : Prop := ∀ c ∈ s, c ≠ '*'

/-- Spec's record invariant (claim C5): canonical halfwidth uppercase
code; name trimmed, whitespace-collapsed and asterisk-free. -/
def specRecordOK (p : Pair) : Prop :=
  fullmatchCodeAscii p.1 = true ∧ pyStrip p.2 = p.2 ∧ starFree p.2

/-- The record shape that actually holds on the dual-sided path. -/
def zgbRecordOK (p : Pair) : Prop :=
  fullmatchCodeAscii p.1 = true ∧ starFree p.2 ∧ wsFree p.2

/-- The record shape that actually holds on the generic path: the code is
a bare 4-6 digit run (possibly fullwidth, never a letter suffix), the name
is whitespace-free but may retain asterisks. -/
def genericRecordOK (p : Pair) : Prop :=
  (4 ≤ p.1.length ∧ p.1.length ≤ 6 ∧ ∀ c ∈ p.1, isDigitPy c = true) ∧ wsFree p.2

/-- The normalized codes of a raw row list that survive the code pattern
(claim C6's `{r.code for r in raw_pairs_after_normalize}`). -/
def codesValid (rows : List Pair) : List Str :=
  rows.filterMap (fun p => (normalizeRec p.1 p.2).map Prod.fst)

/-- The spec's segment, per claim C8: start at the first
whitespace-tolerant occurrence of the requested marker, end at the next
exact occurrence of the opposite marker (or the end of the document). -/
def claimSegment (html side : Str) : Option Str :=
  let compact := collapseWS html
  (scanFirst (tolerantAt side) compact).map (fun start =>
    let other := if side = strBuy then strSell else strBuy
    match (scanFirst (fun r => isStartOf (exactMarker other) r)
            (compact.drop (start + 1))).map (· + (start + 1)) with
    | some e => (compact.drop start).take (e - start)
    | none => compact.drop start)

/-! Character-level lemmas. -/

theorem charOfNat_toNat (n : Nat) (h : n < 0xd800) : (Char.ofNat n).toNat = n := by
  unfold Char.ofNat
  have hv : n.isValidChar := Or.inl h
  rw [dif_pos hv]
  unfold Char.ofNatAux Char.toNat
  show (BitVec.ofNatLt n _).toNat = n
  simp [BitVec.toNat_ofNatLt]

theorem charLe_toNat {a b : Char} : a ≤ b ↔ a.toNat ≤ b.toNat := by
  rw [Char.le_def]
  rfl

theorem isAsciiDigit_iff (c : Char) : isAsciiDigit c = true ↔ 48 ≤ c.toNat ∧ c.toNat ≤ 57 := by
  simp only [isAsciiDigit, Bool.and_eq_true, decide_eq_true_eq]
  rw [charLe_toNat, charLe_toNat]
  exact Iff.rfl

theorem isFWDigit_iff (c : Char) : isFWDigit c = true ↔ 0xFF10 ≤ c.toNat ∧ c.toNat ≤ 0xFF19 := by
  simp only [isFWDigit, Bool.and_eq_true, decide_eq_true_eq]
  rw [charLe_toNat, charLe_toNat]
  exact Iff.rfl

theorem isAsciiUpper_iff (c : Char) : isAsciiUpper c = true ↔ 65 ≤ c.toNat ∧ c.toNat ≤ 90 := by
  simp only [isAsciiUpper, Bool.and_eq_true, decide_eq_true_eq]
  rw [charLe_toNat, charLe_toNat]
  exact Iff.rfl

theorem isAsciiLower_iff (c : Char) : isAsciiLower c = true ↔ 97 ≤ c.toNat ∧ c.toNat ≤ 122 := by
  simp only [isAsciiLower, Bool.and_eq_true, decide_eq_true_eq]
  rw [charLe_toNat, charLe_toNat]
  exact Iff.rfl

theorem isFWUpper_iff (c : Char) : isFWUpper c = true ↔ 0xFF21 ≤ c.toNat ∧ c.toNat ≤ 0xFF3A := by
  simp only [isFWUpper, Bool.and_eq_true, decide_eq_true_eq]
  rw [charLe_toNat, charLe_toNat]
  exact Iff.rfl

theorem isFWLower_iff (c : Char) : isFWLower c = true ↔ 0xFF41 ≤ c.toNat ∧ c.toNat ≤ 0xFF5A := by
  simp only [isFWLower, Bool.and_eq_true, decide_eq_true_eq]
  rw [charLe_toNat, charLe_toNat]
  exact Iff.rfl

theorem charEq_iff_toNat {a b : Char} : a = b ↔ a.toNat = b.toNat := by
  constructor
  · intro h
    rw [h]
  · intro h
    apply Char.eq_of_val_eq
    apply UInt32.eq_of_toBitVec_eq
    have := h
    unfold Char.toNat UInt32.toNat at this
    exact BitVec.eq_of_toNat_eq this

theorem isWS_iff (c : Char) : isWS c = true ↔
    c.toNat = 32 ∨ c.toNat = 9 ∨ c.toNat = 10 ∨ c.toNat = 13 ∨ c.toNat = 11 ∨
    c.toNat = 12 ∨ c.toNat = 160 ∨ c.toNat = 0x3000 := by
  simp only [isWS, Bool.or_eq_true, decide_eq_true_eq]
  constructor
  · rintro (((((((h | h) | h) | h) | h) | h) | h) | h) <;>
      simp [charEq_iff_toNat.mp h]
  · intro h
    rcases h with h | h | h | h | h | h | h | h <;>
      [ exact Or.inl (Or.inl (Or.inl (Or.inl (Or.inl (Or.inl (Or.inl (charEq_iff_toNat.mpr h)))))));
        exact Or.inl (Or.inl (Or.inl (Or.inl (Or.inl (Or.inl (Or.inr (charEq_iff_toNat.mpr h)))))));
        exact Or.inl (Or.inl (Or.inl (Or.inl (Or.inl (Or.inr (charEq_iff_toNat.mpr h))))));
        exact Or.inl (Or.inl (Or.inl (Or.inl (Or.inr (charEq_iff_toNat.mpr h)))));
        exact Or.inl (Or.inl (Or.inl (Or.inr (charEq_iff_toNat.mpr h))));
        exact Or.inl (Or.inl (Or.inr (charEq_iff_toNat.mpr h)));
        exact Or.inl (Or.inr (charEq_iff_toNat.mpr h));
        exact Or.inr (charEq_iff_toNat.mpr h)]

theorem ideographicSpace_toNat : ('　' : Char).toNat = 0x3000 := by decide

theorem nfkcChar_no_fw (c : Char) :
    isFWDigit (nfkcChar c) = false ∧ isFWUpper (nfkcChar c) = false ∧
    isFWLower (nfkcChar c) = false ∧ nfkcChar c ≠ '　' := by
  unfold nfkcChar
  split
  case isTrue h =>
    obtain ⟨h1, h2⟩ := (isFWDigit_iff c).mp h
    have hm : (Char.ofNat (c.toNat - 0xFF10 + 0x30)).toNat = c.toNat - 0xFF10 + 0x30 :=
      charOfNat_toNat _ (by omega)
    refine ⟨?_, ?_, ?_, ?_⟩
    · rw [Bool.eq_false_iff]
      intro hfw
      obtain ⟨a, _⟩ := (isFWDigit_iff _).mp hfw
      omega
    · rw [Bool.eq_false_iff]
      intro hfw
      obtain ⟨a, _⟩ := (isFWUpper_iff _).mp hfw
      omega
    · rw [Bool.eq_false_iff]
      intro hfw
      obtain ⟨a, _⟩ := (isFWLower_iff _).mp hfw
      omega
    · intro he
      have := charEq_iff_toNat.mp he
      rw [hm, ideographicSpace_toNat] at this
      omega
  case isFalse h1 =>
    split
    case isTrue h =>
      obtain ⟨ha, hb⟩ := (isFWUpper_iff c).mp h
      have hm : (Char.ofNat (c.toNat - 0xFF21 + 0x41)).toNat = c.toNat - 0xFF21 + 0x41 :=
        charOfNat_toNat _ (by omega)
      refine ⟨?_, ?_, ?_, ?_⟩
      · rw [Bool.eq_false_iff]
        intro hfw
        obtain ⟨a, _⟩ := (isFWDigit_iff _).mp hfw
        omega
      · rw [Bool.eq_false_iff]
        intro hfw
        obtain ⟨a, _⟩ := (isFWUpper_iff _).mp hfw
        omega
      · rw [Bool.eq_false_iff]
        intro hfw
        obtain ⟨a, _⟩ := (isFWLower_iff _).mp hfw
        omega
      · intro he
        have := charEq_iff_toNat.mp he
        rw [hm, ideographicSpace_toNat] at this
        omega
    case isFalse h2 =>
      split
      case isTrue h =>
        obtain ⟨ha, hb⟩ := (isFWLower_iff c).mp h
        have hm : (Char.ofNat (c.toNat - 0xFF41 + 0x61)).toNat = c.toNat - 0xFF41 + 0x61 :=
          charOfNat_toNat _ (by omega)
        refine ⟨?_, ?_, ?_, ?_⟩
        · rw [Bool.eq_false_iff]
          intro hfw
          obtain ⟨a, _⟩ := (isFWDigit_iff _).mp hfw
          omega
        · rw [Bool.eq_false_iff]
          intro hfw
          obtain ⟨a, _⟩ := (isFWUpper_iff _).mp hfw
          omega
        · rw [Bool.eq_false_iff]
          intro hfw
          obtain ⟨a, _⟩ := (isFWLower_iff _).mp hfw
          omega
        · intro he
          have := charEq_iff_toNat.mp he
          rw [hm, ideographicSpace_toNat] at this
          omega
      case isFalse h3 =>
        split
        case isTrue h =>
          refine ⟨by decide, by decide, by decide, by decide⟩
        case isFalse h4 =>
          exact ⟨Bool.not_eq_true _ ▸ (Bool.eq_false_iff.mpr h1),
            Bool.not_eq_true _ ▸ (Bool.eq_false_iff.mpr h2),
            Bool.not_eq_true _ ▸ (Bool.eq_false_iff.mpr h3), h4⟩

theorem pyUpperChar_cases (c : Char) :
    pyUpperChar c = c ∨ isAsciiUpper (pyUpperChar c) = true := by
  unfold pyUpperChar
  split
  case isTrue h =>
    obtain ⟨h1, h2⟩ := (isAsciiLower_iff c).mp h
    have hm : (Char.ofNat (c.toNat - 32)).toNat = c.toNat - 32 :=
      charOfNat_toNat _ (by omega)
    exact Or.inr ((isAsciiUpper_iff _).mpr (by omega))
  case isFalse h =>
    exact Or.inl rfl

theorem nfkcChar_fix (c : Char) (h1 : isFWDigit c = false) (h2 : isFWUpper c = false)
    (h3 : isFWLower c = false) (h4 : c ≠ '　') : nfkcChar c = c := by
  unfold nfkcChar
  rw [if_neg (by simp [h1]), if_neg (by simp [h2]), if_neg (by simp [h3]), if_neg h4]

theorem pyUpperChar_fix (c : Char) (h : isAsciiLower c = false) : pyUpperChar c = c := by
  unfold pyUpperChar
  rw [if_neg (by simp [h])]

theorem asciiUpper_canon {d : Char} (h : isAsciiUpper d = true) :
    nfkcChar d = d ∧ pyUpperChar d = d ∧ isWS d = false := by
  obtain ⟨h1, h2⟩ := (isAsciiUpper_iff d).mp h
  refine ⟨nfkcChar_fix d ?_ ?_ ?_ ?_, pyUpperChar_fix d ?_, ?_⟩
  · rw [Bool.eq_false_iff]
    intro hx
    obtain ⟨a, _⟩ := (isFWDigit_iff _).mp hx
    omega
  · rw [Bool.eq_false_iff]
    intro hx
    obtain ⟨a, _⟩ := (isFWUpper_iff _).mp hx
    omega
  · rw [Bool.eq_false_iff]
    intro hx
    obtain ⟨a, _⟩ := (isFWLower_iff _).mp hx
    omega
  · intro he
    have := charEq_iff_toNat.mp he
    rw [ideographicSpace_toNat] at this
    omega
  · rw [Bool.eq_false_iff]
    intro hx
    obtain ⟨a, _⟩ := (isAsciiLower_iff _).mp hx
    omega
  · rw [Bool.eq_false_iff]
    intro hx
    rcases (isWS_iff _).mp hx with h | h | h | h | h | h | h | h <;> omega

/-! List-level utility lemmas. -/

theorem mapFix {f : Char → Char} : ∀ {l : Str}, (∀ a ∈ l, f a = a) → l.map f = l
  | [], _ => rfl
  | c :: t, h => by
    simp only [List.map_cons, List.cons.injEq]
    exact ⟨h c (List.mem_cons_self c t), mapFix (fun a ha => h a (List.mem_cons_of_mem c ha))⟩

theorem filterSelf {p : Char → Bool} : ∀ {l : Str}, (∀ a ∈ l, p a = true) → l.filter p = l
  | [], _ => rfl
  | c :: t, h => by
    rw [List.filter_cons, if_pos (h c (List.mem_cons_self c t))]
    exact congrArg _ (filterSelf (fun a ha => h a (List.mem_cons_of_mem c ha)))

theorem takeWhileAll {p : Char → Bool} : ∀ {l : Str}, ∀ a ∈ l.takeWhile p, p a = true := by
  intro l
  induction l with
  | nil => intro a ha; simp [List.takeWhile] at ha
  | cons c t ih =>
    intro a ha
    rw [List.takeWhile_cons] at ha
    by_cases hc : p c = true
    · rw [if_pos hc] at ha
      rcases List.mem_cons.mp ha with h | h
      · rw [h]; exact hc
      · exact ih a h
    · rw [if_neg hc] at ha
      exact absurd ha (List.not_mem_nil a)

theorem dropWhileHeadFalse {p : Char → Bool} :
    ∀ {l : Str} {a : Char} {t : Str}, l.dropWhile p = a :: t → p a = false := by
  intro l
  induction l with
  | nil => intro a t h; simp [List.dropWhile] at h
  | cons c r ih =>
    intro a t h
    rw [List.dropWhile_cons] at h
    by_cases hc : p c = true
    · rw [if_pos hc] at h
      exact ih h
    · rw [if_neg hc] at h
      cases h
      exact Bool.eq_false_iff.mpr hc

theorem dropWhileOfHeadFalse {p : Char → Bool} :
    ∀ {l : Str}, (∀ a t, l = a :: t → p a = false) → l.dropWhile p = l := by
  intro l h
  cases l with
  | nil => rfl
  | cons c t =>
    rw [List.dropWhile_cons, if_neg]
    simp [h c t rfl]

theorem dropWhileIdem {p : Char → Bool} (l : Str) :
    (l.dropWhile p).dropWhile p = l.dropWhile p := by
  apply dropWhileOfHeadFalse
  intro a t h
  exact dropWhileHeadFalse h

theorem memOfMemDropWhile {p : Char → Bool} :
    ∀ {l : Str} {a : Char}, a ∈ l.dropWhile p → a ∈ l := by
  intro l
  induction l with
  | nil => intro a h; simp [List.dropWhile] at h
  | cons c t ih =>
    intro a h
    rw [List.dropWhile_cons] at h
    by_cases hc : p c = true
    · rw [if_pos hc] at h
      exact List.mem_cons_of_mem c (ih h)
    · rw [if_neg hc] at h
      exact h

theorem memOfMemPyStrip {s : Str} {a : Char} (h : a ∈ pyStrip s) : a ∈ s := by
  unfold pyStrip at h
  rw [List.mem_reverse] at h
  have h2 := memOfMemDropWhile h
  rw [List.mem_reverse] at h2
  exact memOfMemDropWhile h2

/-- The right-strip part of `pyStrip` is a front-anchored part of its
argument: dropping trailing characters never changes the head. -/
theorem rstripHeadStable {l : Str} {a : Char} {t : Str}
    (h : (l.reverse.dropWhile isWS).reverse = a :: t) : ∃ r, l = a :: r := by
  have hsfx : l.reverse.dropWhile isWS <:+ l.reverse := List.dropWhile_suffix _
  obtain ⟨u, hu⟩ := hsfx
  have : l = (l.reverse.dropWhile isWS).reverse ++ u.reverse := by
    have h2 := congrArg List.reverse hu
    rw [List.reverse_append, List.reverse_reverse] at h2
    exact h2.symm
  rw [h] at this
  exact ⟨t ++ u.reverse, by rw [this]; simp⟩

theorem pyStripIdem (s : Str) : pyStrip (pyStrip s) = pyStrip s := by
  have hfront : (pyStrip s).dropWhile isWS = pyStrip s := by
    apply dropWhileOfHeadFalse
    intro a t h
    unfold pyStrip at h
    obtain ⟨r, hr⟩ := rstripHeadStable h
    have : (s.dropWhile isWS) = a :: r := hr
    exact dropWhileHeadFalse this
  show (((pyStrip s).dropWhile isWS).reverse.dropWhile isWS).reverse = pyStrip s
  rw [hfront]
  show ((pyStrip s).reverse.dropWhile isWS).reverse = pyStrip s
  unfold pyStrip
  rw [List.reverse_reverse, dropWhileIdem]

/-! Canonicity of the ZGB normalizer. -/

theorem normCode_char {s : Str} {d : Char} (hd : d ∈ normCode s) :
    nfkcChar d = d ∧ pyUpperChar d = d ∧ isWS d = false := by
  unfold normCode upperStr at hd
  obtain ⟨e, he, hde⟩ := List.mem_map.mp hd
  unfold removeWS at he
  have hews : (!isWS e) = true := (List.mem_filter.mp he).2
  have hem : e ∈ nfkc s := (List.mem_filter.mp he).1
  unfold nfkc at hem
  obtain ⟨f, _, hef⟩ := List.mem_map.mp hem
  have hefw := nfkcChar_no_fw f
  rw [hef] at hefw
  rcases pyUpperChar_cases e with hc | hc
  · rw [← hde, hc]
    refine ⟨nfkcChar_fix e hefw.1 hefw.2.1 hefw.2.2.1 hefw.2.2.2, ?_, ?_⟩
    · rw [← hc]
      exact congrArg pyUpperChar hc
    · simpa using hews
  · rw [← hde]
    exact asciiUpper_canon hc

theorem normCode_idem (s : Str) : normCode (normCode s) = normCode s := by
  have h1 : nfkc (normCode s) = normCode s :=
    mapFix (fun a ha => (normCode_char ha).1)
  have h2 : removeWS (normCode s) = normCode s :=
    filterSelf (fun a ha => by simp [(normCode_char ha).2.2])
  have h3 : upperStr (normCode s) = normCode s :=
    mapFix (fun a ha => (normCode_char ha).2.1)
  show upperStr (removeWS (nfkc (normCode s))) = normCode s
  rw [h1, h2, h3]

theorem normName_idem (s : Str) : normName (normName s) = normName s := by
  have hstar : ∀ a ∈ normName s, (a ≠ '*' : Bool) = true := by
    intro a ha
    unfold normName at ha
    have := memOfMemPyStrip ha
    unfold removeStar at this
    simpa using (List.mem_filter.mp this).2
  show pyStrip (removeStar (normName s)) = normName s
  unfold removeStar
  rw [filterSelf hstar]
  exact pyStripIdem _

/-- Claim C9 (confirmed): the per-record normalization of the dual-sided
cleanup is idempotent — re-feeding an already-normalized `(code, name)`
pair yields the identical record. -/
theorem C9_normalizer_idempotent (c n : Str) (p : Pair)
    (h : normalizeRec c n = some p) : normalizeRec p.1 p.2 = some p := by
  unfold normalizeRec at h
  by_cases hm : fullmatchCode (normCode c) = true
  · rw [if_pos hm] at h
    cases h
    unfold normalizeRec
    rw [normCode_idem]
    rw [if_pos hm]
    rw [normName_idem]
  · rw [if_neg hm] at h
    cases h

/-- Witness for C9 at a concrete fullwidth, starred, padded input. -/
theorem C9_witness :
    normalizeRec "２３３０ａ".toList " *tsmc* ".toList = some ("2330A".toList, "tsmc".toList) ∧
    normalizeRec "2330A".toList "tsmc".toList = some ("2330A".toList, "tsmc".toList) := by
  have h1 : normalizeRec "２３３０ａ".toList " *tsmc* ".toList =
      some ("2330A".toList, "tsmc".toList) := by decide
  exact ⟨h1, C9_normalizer_idempotent _ _ _ h1⟩

/-- Claim C3 (confirmed): `parse_codes_generic` tries onclick, js, tables
strictly in that order; the first strategy yielding a non-empty frame is
post-processed and returned exclusively (independently of what any later
strategy would return), and when all three are empty the cascade fails. -/
theorem C3_cascade_order (oc tb : Str → Option DF) (html : Str) :
    (∀ d1, oc html = some d1 → d1 ≠ [] →
      parse_codes_generic oc tb html = Except.ok (genericPost d1)) ∧
    ((oc html = none ∨ oc html = some []) → ∀ d2, extract_from_js html = some d2 → d2 ≠ [] →
      parse_codes_generic oc tb html = Except.ok (genericPost d2)) ∧
    ((oc html = none ∨ oc html = some []) → extract_from_js html = none →
      ∀ d3, tb html = some d3 → d3 ≠ [] →
      parse_codes_generic oc tb html = Except.ok (genericPost d3)) ∧
    ((oc html = none ∨ oc html = some []) → extract_from_js html = none →
      (tb html = none ∨ tb html = some []) →
      parse_codes_generic oc tb html = Except.error errGeneric) := by
  refine ⟨?_, ?_, ?_, ?_⟩
  · intro d1 h1 hne
    simp [parse_codes_generic, tryStrat, h1, hne]
  · intro h1 d2 h2 hne
    rcases h1 with h1 | h1 <;> simp [parse_codes_generic, tryStrat, h1, h2, hne]
  · intro h1 h2 d3 h3 hne
    rcases h1 with h1 | h1 <;> simp [parse_codes_generic, tryStrat, h1, h2, h3, hne]
  · intro h1 h2 h3
    rcases h1 with h1 | h1 <;> rcases h3 with h3 | h3 <;>
      simp [parse_codes_generic, tryStrat, h1, h2, h3]

/-- Witness for C3 at a concrete strategy assignment: the onclick result
wins and the tables strategy is never consulted. -/
theorem C3_witness :
    (fun (_ : Str) => some ([("2330".toList, "T X".toList)] : DF)) [] =
      some [("2330".toList, "T X".toList)] ∧
    ([("2330".toList, "T X".toList)] : DF) ≠ [] ∧
    parse_codes_generic (fun _ => some [("2330".toList, "T X".toList)])
      (fun _ => some [("9999".toList, "Y".toList)]) [] =
      Except.ok (genericPost [("2330".toList, "T X".toList)]) :=
  ⟨rfl, by decide,
    (C3_cascade_order (fun _ => some [("2330".toList, "T X".toList)])
      (fun _ => some [("9999".toList, "Y".toList)]) []).1 _ rfl (by decide)⟩

/-! Intersection-engine lemmas. -/

theorem mem_insertSorted (c x : Str) : ∀ l : List Str,
    (x ∈ insertSorted c l ↔ x = c ∨ x ∈ l)
  | [] => by simp [insertSorted]
  | y :: r => by
    unfold insertSorted
    by_cases h : strLe c y = true
    · rw [if_pos h]
      simp
    · rw [if_neg h]
      rw [List.mem_cons, mem_insertSorted c x r, List.mem_cons]
      tauto

theorem mem_sortStr (x : Str) : ∀ l : List Str, x ∈ sortStr l ↔ x ∈ l
  | [] => Iff.rfl
  | c :: r => by
    show x ∈ insertSorted c (sortStr r) ↔ _
    rw [mem_insertSorted, mem_sortStr x r, List.mem_cons]

theorem assertAux_eq (pass : Pair → Bool) : ∀ l : DF,
    assertAux pass l = (l.filter pass, (l.filter (fun r => !pass r)).map Prod.fst)
  | [] => rfl
  | r :: rest => by
    show (let kd := assertAux pass rest
          if pass r then (r :: kd.1, kd.2) else (kd.1, r.1 :: kd.2)) = _
    rw [assertAux_eq pass rest]
    by_cases h : pass r = true
    · simp [List.filter_cons, h]
    · simp [List.filter_cons, h, Bool.eq_false_iff.mpr h]

theorem codesOf_pairing (X : List Str) (f : Str → Str) :
    codesOf (X.map (fun c => (c, f c))) = X := by
  unfold codesOf
  rw [List.map_map]
  have h : (Prod.fst ∘ fun c => (c, f c)) = id := rfl
  rw [h, List.map_id]


theorem optFirst_none_right (a : Option Str) : optFirst a none = a := by
  cases a <;> rfl

theorem nmLookup_append (m1 m2 : List Pair) (c : Str) :
    nmLookup (m1 ++ m2) c = optFirst (nmLookup m1 c) (nmLookup m2 c) := by
  induction m1 with
  | nil => rfl
  | cons p r ih =>
    show nmLookup (p :: (r ++ m2)) c = _
    by_cases h : p.1 = c
    · simp [nmLookup, h, optFirst]
    · simp only [nmLookup, if_neg h]
      exact ih

theorem resolveName_cons (p : Pair) (rest : List Pair) (c : Str) :
    resolveName (p :: rest) c =
      if p.1 = c ∧ pyStrip p.2 ≠ [] then some (pyStrip p.2) else resolveName rest c := rfl

theorem nameFold_lookup (inter : List Str) (c : Str) (hc : c ∈ inter) :
    ∀ (rows : List Pair) (m : List Pair),
      nmLookup (rows.foldl (nmStep inter) m) c =
        optFirst (nmLookup m c) (resolveName rows c) := by
  intro rows
  induction rows with
  | nil =>
    intro m
    show nmLookup m c = optFirst (nmLookup m c) none
    rw [optFirst_none_right]
  | cons p rest ih =>
    intro m
    show nmLookup (rest.foldl (nmStep inter) (nmStep inter m p)) c = _
    rw [ih (nmStep inter m p)]
    unfold nmStep
    by_cases hcond : p.1 ∈ inter ∧ nmLookup m p.1 = none ∧ pyStrip p.2 ≠ []
    · rw [if_pos hcond, nmLookup_append]
      by_cases hpc : p.1 = c
      · have hmc : nmLookup m c = none := hpc ▸ hcond.2.1
        rw [hmc]
        show optFirst (optFirst none (nmLookup [(p.1, pyStrip p.2)] c)) _ = _
        have hone : nmLookup [(p.1, pyStrip p.2)] c = some (pyStrip p.2) := by
          simp [nmLookup, hpc]
        rw [hone]
        rw [resolveName_cons, if_pos ⟨hpc, hcond.2.2⟩]
        rfl
      · have hone : nmLookup [(p.1, pyStrip p.2)] c = none := by
          simp [nmLookup, hpc]
        rw [hone, optFirst_none_right]
        rw [resolveName_cons, if_neg (fun hx => hpc hx.1)]
    · rw [if_neg hcond]
      cases hmc : nmLookup m c with
      | some v => rfl
      | none =>
        show resolveName rest c = optFirst none (resolveName (p :: rest) c)
        rw [resolveName_cons, if_neg]
        · rfl
        · rintro ⟨h1, h2⟩
          exact hcond ⟨h1 ▸ hc, h1 ▸ hmc, h2⟩

theorem nameMapBuild_eq (dfs : List DF) (inter : List Str) :
    nameMapBuild dfs inter = (dfs.flatten).foldl (nmStep inter) [] := by
  unfold nameMapBuild
  suffices h : ∀ (ds : List DF) (m : List Pair),
      ds.foldl (fun m df => df.foldl (nmStep inter) m) m = (ds.flatten).foldl (nmStep inter) m by
    exact h dfs []
  intro ds
  induction ds with
  | nil => intro m; rfl
  | cons d rest ih =>
    intro m
    show rest.foldl _ (d.foldl (nmStep inter) m) = ((d :: rest).flatten).foldl (nmStep inter) m
    rw [List.flatten_cons, List.foldl_append]
    exact ih _

theorem resolveName_none (rows : List Pair) (c : Str)
    (h : ∀ p ∈ rows, p.1 = c → pyStrip p.2 = []) : resolveName rows c = none := by
  induction rows with
  | nil => rfl
  | cons p rest ih =>
    rw [resolveName_cons, if_neg]
    · exact ih (fun q hq => h q (List.mem_cons_of_mem p hq))
    · rintro ⟨h1, h2⟩
      exact h2 (h p (List.mem_cons_self p rest) h1)

theorem nway_nil_case (dfs : List DF)
    (hF : (dfs.filter (fun d => decide (d ≠ []))).map (fun d => (codesOf d).dedup) = []) :
    nway_intersection dfs = [] := by
  unfold nway_intersection
  rw [hF]

theorem nway_cons_case (dfs : List DF) (s : List Str) (rest : List (List Str))
    (hF : (dfs.filter (fun d => decide (d ≠ []))).map (fun d => (codesOf d).dedup) = s :: rest) :
    nway_intersection dfs =
      (sortStr (s.filter (fun c => decide (∀ t ∈ rest, c ∈ t)))).map
        (fun c => (c, (nmLookup (nameMapBuild dfs
          (s.filter (fun c => decide (∀ t ∈ rest, c ∈ t)))) c).getD [])) := by
  unfold nway_intersection
  rw [hF]

theorem mem_codes_nway (dfs : List DF) (c : Str) :
    c ∈ codesOf (nway_intersection dfs) ↔
      (dfs.filter (fun d => decide (d ≠ [])) ≠ [] ∧
       ∀ d ∈ dfs.filter (fun d => decide (d ≠ [])), c ∈ codesOf d) := by
  cases hFl : dfs.filter (fun d => decide (d ≠ [])) with
  | nil =>
    have hF : (dfs.filter (fun d => decide (d ≠ []))).map (fun d => (codesOf d).dedup) = [] := by
      rw [hFl]
      rfl
    rw [nway_nil_case dfs hF]
    simp [codesOf]
  | cons f fr =>
    have hF : (dfs.filter (fun d => decide (d ≠ []))).map (fun d => (codesOf d).dedup) =
        (codesOf f).dedup :: fr.map (fun d => (codesOf d).dedup) := by
      rw [hFl]
      rfl
    rw [nway_cons_case dfs _ _ hF, codesOf_pairing]
    rw [mem_sortStr, List.mem_filter]
    constructor
    · rintro ⟨h1, h2⟩
      refine ⟨by simp, ?_⟩
      intro d hd
      rcases List.mem_cons.mp hd with hd | hd
      · rw [hd]
        exact List.mem_dedup.mp h1
      · have := of_decide_eq_true h2
        have hmem := this ((codesOf d).dedup) (List.mem_map_of_mem _ hd)
        exact List.mem_dedup.mp hmem
    · rintro ⟨_, h2⟩
      refine ⟨List.mem_dedup.mpr (h2 f (List.mem_cons_self f fr)), ?_⟩
      apply decide_eq_true
      intro t ht
      obtain ⟨d, hd, hdt⟩ := List.mem_map.mp ht
      rw [← hdt]
      exact List.mem_dedup.mpr (h2 d (List.mem_cons_of_mem f hd))

theorem nway_pair_mem (dfs : List DF) (c : Str)
    (h : c ∈ codesOf (nway_intersection dfs)) :
    (c, (resolveName dfs.flatten c).getD []) ∈ nway_intersection dfs := by
  cases hF : (dfs.filter (fun d => decide (d ≠ []))).map (fun d => (codesOf d).dedup) with
  | nil =>
    rw [nway_nil_case dfs hF] at h
    exact absurd h (by simp [codesOf])
  | cons s rest =>
    rw [nway_cons_case dfs s rest hF] at h ⊢
    rw [codesOf_pairing] at h
    have hci : c ∈ s.filter (fun c => decide (∀ t ∈ rest, c ∈ t)) := (mem_sortStr _ _).mp h
    refine List.mem_map.mpr ⟨c, h, ?_⟩
    have hl : nmLookup (nameMapBuild dfs (s.filter (fun c => decide (∀ t ∈ rest, c ∈ t)))) c =
        resolveName dfs.flatten c := by
      rw [nameMapBuild_eq, nameFold_lookup _ c hci]
      rfl
    rw [hl]

/-- Claim C1 (confirmed): for every evaluated rule, the validated overlap's
code set is contained in the intersection of all member frames' code sets,
with equality whenever no membership violation was reported (the dropped
list is empty). -/
theorem C1_intersection_correct (dfs : List DF) (hne : dfs ≠ []) :
    (∀ c ∈ codesOf (assert_membership (nway_intersection dfs) dfs).1,
       ∀ df ∈ dfs, c ∈ codesOf df) ∧
    ((assert_membership (nway_intersection dfs) dfs).2 = [] →
       ∀ c, c ∈ codesOf (assert_membership (nway_intersection dfs) dfs).1 ↔
         ∀ df ∈ dfs, c ∈ codesOf df) := by
  have hkeep : (assert_membership (nway_intersection dfs) dfs).1 =
      (nway_intersection dfs).filter (fun r => decide (∀ p ∈ dfs, r.1 ∈ codesOf p)) := by
    unfold assert_membership
    rw [assertAux_eq]
  have hdrop : (assert_membership (nway_intersection dfs) dfs).2 =
      ((nway_intersection dfs).filter
        (fun r => !decide (∀ p ∈ dfs, r.1 ∈ codesOf p))).map Prod.fst := by
    unfold assert_membership
    rw [assertAux_eq]
  constructor
  · intro c hc df hdf
    rw [hkeep] at hc
    obtain ⟨r, hr, hrc⟩ := List.mem_map.mp hc
    have hpass := of_decide_eq_true (List.mem_filter.mp hr).2
    exact hrc ▸ hpass df hdf
  · intro hdempty c
    constructor
    · intro hc df hdf
      rw [hkeep] at hc
      obtain ⟨r, hr, hrc⟩ := List.mem_map.mp hc
      have hpass := of_decide_eq_true (List.mem_filter.mp hr).2
      exact hrc ▸ hpass df hdf
    · intro hall
      have hcnway : c ∈ codesOf (nway_intersection dfs) := by
        rw [mem_codes_nway]
        constructor
        · obtain ⟨d0, hd0⟩ := List.exists_mem_of_ne_nil dfs hne
          have hc0 : c ∈ codesOf d0 := hall d0 hd0
          have hd0ne : d0 ≠ [] := by
            intro hx
            rw [hx] at hc0
            exact absurd hc0 (List.not_mem_nil c)
          intro hfe
          have : d0 ∈ dfs.filter (fun d => decide (d ≠ [])) :=
            List.mem_filter.mpr ⟨hd0, decide_eq_true hd0ne⟩
          rw [hfe] at this
          exact absurd this (List.not_mem_nil d0)
        · intro d hd
          exact hall d (List.mem_filter.mp hd).1
      obtain ⟨r, hrn, hrc⟩ := List.mem_map.mp hcnway
      rw [hkeep]
      have hallpass : ∀ q ∈ nway_intersection dfs,
          decide (∀ p ∈ dfs, q.1 ∈ codesOf p) = true := by
        intro q hq
        by_contra hnp
        have : q.1 ∈ ((nway_intersection dfs).filter
            (fun r => !decide (∀ p ∈ dfs, r.1 ∈ codesOf p))).map Prod.fst :=
          List.mem_map_of_mem _ (List.mem_filter.mpr ⟨hq, by simp [hnp]⟩)
        rw [← hdrop, hdempty] at this
        exact absurd this (List.not_mem_nil _)
      refine List.mem_map.mpr ⟨r, List.mem_filter.mpr ⟨hrn, hallpass r hrn⟩, hrc⟩

/-- Witness for C1 at two concrete member frames. -/
theorem C1_witness :
    ([[(("2330".toList : Str), "T".toList)],
      [("2330".toList, "U".toList), ("4444".toList, "V".toList)]] : List DF) ≠ [] ∧
    ((∀ c ∈ codesOf (assert_membership
        (nway_intersection [[("2330".toList, "T".toList)],
          [("2330".toList, "U".toList), ("4444".toList, "V".toList)]])
        [[("2330".toList, "T".toList)],
          [("2330".toList, "U".toList), ("4444".toList, "V".toList)]]).1,
       ∀ df ∈ ([[("2330".toList, "T".toList)],
          [("2330".toList, "U".toList), ("4444".toList, "V".toList)]] : List DF),
         c ∈ codesOf df) ∧
     ((assert_membership
        (nway_intersection [[("2330".toList, "T".toList)],
          [("2330".toList, "U".toList), ("4444".toList, "V".toList)]])
        [[("2330".toList, "T".toList)],
          [("2330".toList, "U".toList), ("4444".toList, "V".toList)]]).2 = [] →
       ∀ c, c ∈ codesOf (assert_membership
          (nway_intersection [[("2330".toList, "T".toList)],
            [("2330".toList, "U".toList), ("4444".toList, "V".toList)]])
          [[("2330".toList, "T".toList)],
            [("2330".toList, "U".toList), ("4444".toList, "V".toList)]]).1 ↔
         ∀ df ∈ ([[("2330".toList, "T".toList)],
            [("2330".toList, "U".toList), ("4444".toList, "V".toList)]] : List DF),
           c ∈ codesOf df)) :=
  ⟨by decide, C1_intersection_correct _ (by decide)⟩

/-- Claim C7 (confirmed): the display name of each code in an intersection
is the first nonempty (stripped) name found scanning the member frames in
rule order, and the spec's three-group example evaluates to exactly
`{"2330": "TSMC"}`. -/
theorem C7_first_nonempty_name :
    (∀ (dfs : List DF) (c : Str), c ∈ codesOf (nway_intersection dfs) →
       (c, (resolveName dfs.flatten c).getD []) ∈ nway_intersection dfs) ∧
    nway_intersection
      [[("2330".toList, "TSMC".toList), ("2317".toList, "Foxconn".toList)],
       [("2330".toList, "TSMC-dup".toList), ("9999".toList, "X".toList)],
       [("2330".toList, "".toList), ("2317".toList, "Foxconn2".toList)]] =
      [("2330".toList, "TSMC".toList)] :=
  ⟨nway_pair_mem, by decide⟩

/-- Witness for C7's quantified part at a one-frame input. -/
theorem C7_witness :
    "1111".toList ∈ codesOf (nway_intersection [[("1111".toList, "N".toList)]]) ∧
    ("1111".toList,
      (resolveName ([[(("1111".toList : Str), "N".toList)]] : List DF).flatten "1111".toList).getD [])
      ∈ nway_intersection [[("1111".toList, "N".toList)]] :=
  ⟨by decide, (C7_first_nonempty_name).1 [[("1111".toList, "N".toList)]] "1111".toList (by decide)⟩

/-- Claim C10 (confirmed): a code of the intersection whose name is empty
(after stripping) in every member frame is still returned, paired with the
empty name — never dropped. -/
theorem C10_empty_name_kept (dfs : List DF) (c : Str)
    (h : c ∈ codesOf (nway_intersection dfs))
    (hn : ∀ p ∈ dfs.flatten, p.1 = c → pyStrip p.2 = []) :
    (c, ([] : Str)) ∈ nway_intersection dfs := by
  have := nway_pair_mem dfs c h
  rw [resolveName_none dfs.flatten c hn] at this
  exact this

/-- Witness for C10: one frame whose only name is whitespace. -/
theorem C10_witness :
    "1234".toList ∈ codesOf (nway_intersection [[("1234".toList, " ".toList)]]) ∧
    (∀ p ∈ ([[(("1234".toList : Str), " ".toList)]] : List DF).flatten,
       p.1 = "1234".toList → pyStrip p.2 = []) ∧
    ("1234".toList, ([] : Str)) ∈ nway_intersection [[("1234".toList, " ".toList)]] :=
  ⟨by decide, by decide,
    C10_empty_name_kept [[("1234".toList, " ".toList)]] "1234".toList (by decide) (by decide)⟩

theorem dictLookup_cons (p : Str × DF) (r : List (Str × DF)) (key : Str) :
    dictLookup (p :: r) key = if p.1 = key then some p.2 else dictLookup r key := rfl

theorem dictLookup_mapReplace (k : Str) (v : DF) (key : Str) : ∀ d : List (Str × DF),
    dictLookup (d.map (fun p => if p.1 = k then (k, v) else p)) key =
      if key = k then (if d.any (fun p => p.1 = k) then some v else none)
      else dictLookup d key
  | [] => by
    by_cases h : key = k <;> simp [dictLookup, h]
  | p :: r => by
    rw [List.map_cons]
    by_cases hpk : p.1 = k
    · rw [if_pos hpk, dictLookup_cons]
      by_cases hkey : key = k
      · rw [if_pos hkey, if_pos (show ((k, v).1 = key) from hkey.symm)]
        rw [if_pos (by simp [List.any_cons, hpk])]
      · rw [if_neg (show ¬ ((k, v).1 = key) from fun hx => hkey hx.symm)]
        rw [dictLookup_mapReplace k v key r, if_neg hkey, if_neg hkey]
        rw [dictLookup_cons, if_neg (fun hx => hkey ((hpk.symm.trans hx).symm ▸ rfl))]
    · rw [if_neg hpk, dictLookup_cons]
      by_cases hpkey : p.1 = key
      · rw [if_pos hpkey]
        have hkk : ¬ key = k := fun hx => hpk (hpkey.trans hx)
        rw [if_neg hkk, dictLookup_cons, if_pos hpkey]
      · rw [if_neg hpkey, dictLookup_mapReplace k v key r]
        by_cases hkey : key = k
        · rw [if_pos hkey, if_pos hkey, List.any_cons]
          have hor : (decide (p.1 = k) || r.any fun p => decide (p.1 = k)) =
              (r.any fun p => decide (p.1 = k)) := by
            simp [hpk]
          rw [hor]
        · rw [if_neg hkey, if_neg hkey, dictLookup_cons, if_neg hpkey]

theorem dictLookup_append_absent (k : Str) (v : DF) (key : Str) : ∀ d : List (Str × DF),
    (∀ p ∈ d, p.1 ≠ k) →
    dictLookup (d ++ [(k, v)]) key = if key = k then some v else dictLookup d key
  | [], _ => by
    rw [List.nil_append, dictLookup_cons]
    by_cases h : key = k
    · rw [if_pos h, if_pos (show ((k, v).1 = key) from h.symm)]
    · rw [if_neg h, if_neg (show ¬ ((k, v).1 = key) from fun hx => h hx.symm)]
  | p :: r, habs => by
    rw [List.cons_append, dictLookup_cons]
    by_cases hpkey : p.1 = key
    · rw [if_pos hpkey]
      have hkk : ¬ key = k := fun hx =>
        habs p (List.mem_cons_self p r) (hpkey.trans hx)
      rw [if_neg hkk, dictLookup_cons, if_pos hpkey]
    · rw [if_neg hpkey,
        dictLookup_append_absent k v key r (fun q hq => habs q (List.mem_cons_of_mem p hq))]
      by_cases hkey : key = k
      · rw [if_pos hkey, if_pos hkey]
      · rw [if_neg hkey, if_neg hkey, dictLookup_cons, if_neg hpkey]

theorem dictLookup_insert (d : List (Str × DF)) (k : Str) (v : DF) (key : Str) :
    dictLookup (dictInsert d k v) key = if key = k then some v else dictLookup d key := by
  unfold dictInsert
  by_cases hany : d.any (fun p => p.1 = k) = true
  · rw [if_pos hany, dictLookup_mapReplace, hany]
    simp
  · rw [if_neg hany]
    apply dictLookup_append_absent
    intro p hp hpk
    exact hany (List.any_eq_true.mpr ⟨p, hp, decide_eq_true hpk⟩)

theorem runOverlaps_has (data : Str → DF) (rules : List Rule) (r : Rule) (hr : r ∈ rules) :
    dictLookup (runOverlaps data rules) r.name ≠ none := by
  unfold runOverlaps
  suffices h : ∀ (rs : List Rule) (acc : List (Str × DF)),
      (r ∈ rs ∨ dictLookup acc r.name ≠ none) →
      dictLookup (rs.foldl (fun acc q => dictInsert acc q.name (ruleOverlap data q).1) acc)
        r.name ≠ none by
    exact h rules [] (Or.inl hr)
  intro rs
  induction rs with
  | nil =>
    intro acc hacc
    rcases hacc with h | h
    · exact absurd h (List.not_mem_nil r)
    · exact h
  | cons q qs ih =>
    intro acc hacc
    show dictLookup (qs.foldl _ (dictInsert acc q.name (ruleOverlap data q).1)) r.name ≠ none
    rcases hacc with h | h
    · rcases List.mem_cons.mp h with h | h
      · apply ih
        right
        rw [dictLookup_insert, h]
        simp
      · exact ih _ (Or.inl h)
    · apply ih
      right
      rw [dictLookup_insert]
      by_cases hk : r.name = q.name
      · simp [hk]
      · rw [if_neg hk]
        exact h

/-- Claim C2 (confirmed): a per-group scrape failure is caught and replaced
by the empty frame, the batch produces an overlap entry for every
configured rule, and any rule whose member labels include the failed label
evaluates to an empty overlap without raising. -/
theorem C2_fail_soft (results : List (Str × Except Str DF)) (rules : List Rule)
    (r : Rule) (hr : r ∈ rules) (lbl : Str) (hl : lbl ∈ r.groups)
    (e : Str) (hf : lastBinding results lbl = some (Except.error e)) :
    buildData results lbl = [] ∧
    dictLookup (runOverlaps (buildData results) rules) r.name ≠ none ∧
    (ruleOverlap (buildData results) r).1 = [] := by
  have hdata : buildData results lbl = [] := by
    unfold buildData
    rw [hf]
  refine ⟨hdata, runOverlaps_has _ rules r hr, ?_⟩
  unfold ruleOverlap assert_membership
  rw [assertAux_eq]
  show List.filter _ (nway_intersection (r.groups.map (buildData results))) = []
  apply List.filter_eq_nil_iff.mpr
  intro q hq
  intro hpass
  have hall := of_decide_eq_true hpass
  have hmem : ([] : DF) ∈ r.groups.map (buildData results) := by
    rw [← hdata]
    exact List.mem_map_of_mem _ hl
  have := hall [] hmem
  exact absurd this (List.not_mem_nil _)

/-- Witness for C2: target `A` fails, the single rule references `A`. -/
theorem C2_witness :
    (⟨"R".toList, ["A".toList, "B".toList]⟩ : Rule) ∈
      [(⟨"R".toList, ["A".toList, "B".toList]⟩ : Rule)] ∧
    "A".toList ∈ (⟨"R".toList, ["A".toList, "B".toList]⟩ : Rule).groups ∧
    lastBinding [("A".toList, (Except.error "boom".toList : Except Str DF))] "A".toList =
      some (Except.error "boom".toList) ∧
    (buildData [("A".toList, (Except.error "boom".toList : Except Str DF))] "A".toList = [] ∧
     dictLookup (runOverlaps
        (buildData [("A".toList, (Except.error "boom".toList : Except Str DF))])
        [⟨"R".toList, ["A".toList, "B".toList]⟩])
        ("R".toList) ≠ none ∧
     (ruleOverlap (buildData [("A".toList, (Except.error "boom".toList : Except Str DF))])
        ⟨"R".toList, ["A".toList, "B".toList]⟩).1 = []) :=
  ⟨by decide, by decide, rfl,
    C2_fail_soft [("A".toList, Except.error "boom".toList)]
      [⟨"R".toList, ["A".toList, "B".toList]⟩]
      ⟨"R".toList, ["A".toList, "B".toList]⟩ (by decide)
      "A".toList (by decide) "boom".toList rfl⟩

/-! Cleanup-stage lemmas for the record invariants. -/

theorem mem_dropDupAux : ∀ (seen l : DF) (p : Pair), p ∈ dropDupAux seen l → p ∈ l := by
  intro seen l
  induction l generalizing seen with
  | nil => intro p h; exact absurd h (List.not_mem_nil p)
  | cons q rest ih =>
    intro p h
    unfold dropDupAux at h
    by_cases hq : q ∈ seen
    · rw [if_pos hq] at h
      exact List.mem_cons_of_mem q (ih seen p h)
    · rw [if_neg hq] at h
      rcases List.mem_cons.mp h with h | h
      · rw [h]; exact List.mem_cons_self q rest
      · exact List.mem_cons_of_mem q (ih (q :: seen) p h)

theorem dropDupAux_nodup : ∀ (seen l : DF),
    (dropDupAux seen l).Nodup ∧ ∀ p ∈ dropDupAux seen l, p ∉ seen := by
  intro seen l
  induction l generalizing seen with
  | nil => exact ⟨List.nodup_nil, fun p h => absurd h (List.not_mem_nil p)⟩
  | cons q rest ih =>
    unfold dropDupAux
    by_cases hq : q ∈ seen
    · rw [if_pos hq]
      exact ih seen
    · rw [if_neg hq]
      obtain ⟨hnd, hns⟩ := ih (q :: seen)
      constructor
      · refine List.nodup_cons.mpr ⟨?_, hnd⟩
        intro hmem
        exact hns q hmem (List.mem_cons_self q seen)
      · intro p hp
        rcases List.mem_cons.mp hp with hp | hp
        · rw [hp]; exact hq
        · intro hps
          exact hns p hp (List.mem_cons_of_mem q hps)

theorem zgbCleanAux_cons (seen : List Str) (p : Pair) (rest : List Pair) :
    zgbCleanAux seen (p :: rest) =
      match normalizeRec p.1 p.2 with
      | none => zgbCleanAux seen rest
      | some q =>
        if q.1 ∈ seen then zgbCleanAux seen rest
        else q :: zgbCleanAux (q.1 :: seen) rest := rfl

theorem mem_zgbCleanAux : ∀ (seen : List Str) (rows : List Pair) (q : Pair),
    q ∈ zgbCleanAux seen rows → ∃ p ∈ rows, normalizeRec p.1 p.2 = some q := by
  intro seen rows
  induction rows generalizing seen with
  | nil => intro q h; exact absurd h (List.not_mem_nil q)
  | cons p rest ih =>
    intro q h
    rw [zgbCleanAux_cons] at h
    cases hn : normalizeRec p.1 p.2 with
    | none =>
      simp only [hn] at h
      obtain ⟨p0, hp0, hq0⟩ := ih seen q h
      exact ⟨p0, List.mem_cons_of_mem p hp0, hq0⟩
    | some q0 =>
      simp only [hn] at h
      by_cases hs : q0.1 ∈ seen
      · rw [if_pos hs] at h
        obtain ⟨p0, hp0, hq0⟩ := ih seen q h
        exact ⟨p0, List.mem_cons_of_mem p hp0, hq0⟩
      · rw [if_neg hs] at h
        rcases List.mem_cons.mp h with h | h
        · exact ⟨p, List.mem_cons_self p rest, by rw [hn, h]⟩
        · obtain ⟨p0, hp0, hq0⟩ := ih (q0.1 :: seen) q h
          exact ⟨p0, List.mem_cons_of_mem p hp0, hq0⟩

theorem mem_codes_zgbCleanAux : ∀ (seen : List Str) (rows : List Pair) (c : Str),
    c ∈ codesOf (zgbCleanAux seen rows) ↔
      (c ∉ seen ∧ ∃ p ∈ rows, (normalizeRec p.1 p.2).map Prod.fst = some c) := by
  intro seen rows
  induction rows generalizing seen with
  | nil =>
    intro c
    simp [zgbCleanAux, codesOf]
  | cons p rest ih =>
    intro c
    rw [zgbCleanAux_cons]
    cases hn : normalizeRec p.1 p.2 with
    | none =>
      simp only [hn]
      rw [ih seen c]
      constructor
      · rintro ⟨h1, p0, hp0, h2⟩
        exact ⟨h1, p0, List.mem_cons_of_mem p hp0, h2⟩
      · rintro ⟨h1, p0, hp0, h2⟩
        rcases List.mem_cons.mp hp0 with hp | hp
        · rw [hp, hn] at h2
          cases h2
        · exact ⟨h1, p0, hp, h2⟩
    | some q0 =>
      simp only [hn]
      by_cases hs : q0.1 ∈ seen
      · rw [if_pos hs, ih seen c]
        constructor
        · rintro ⟨h1, p0, hp0, h2⟩
          exact ⟨h1, p0, List.mem_cons_of_mem p hp0, h2⟩
        · rintro ⟨h1, p0, hp0, h2⟩
          rcases List.mem_cons.mp hp0 with hp | hp
          · rw [hp, hn] at h2
            cases h2
            exact absurd hs h1
          · exact ⟨h1, p0, hp, h2⟩
      · rw [if_neg hs]
        show c ∈ codesOf (q0 :: zgbCleanAux (q0.1 :: seen) rest) ↔ _
        show c ∈ q0.1 :: codesOf (zgbCleanAux (q0.1 :: seen) rest) ↔ _
        rw [List.mem_cons, ih (q0.1 :: seen) c]
        constructor
        · rintro (h | ⟨h1, p0, hp0, h2⟩)
          · exact ⟨h ▸ hs, p, List.mem_cons_self p rest, by rw [hn, h]; rfl⟩
          · exact ⟨fun hx => h1 (List.mem_cons_of_mem _ hx), p0,
              List.mem_cons_of_mem p hp0, h2⟩
        · rintro ⟨h1, p0, hp0, h2⟩
          rcases List.mem_cons.mp hp0 with hp | hp
          · rw [hp, hn] at h2
            cases h2
            exact Or.inl rfl
          · by_cases hcq : c = q0.1
            · exact Or.inl hcq
            · refine Or.inr ⟨?_, p0, hp, h2⟩
              intro hx
              rcases List.mem_cons.mp hx with hx | hx
              · exact hcq hx
              · exact h1 hx

theorem nodup_codes_zgbCleanAux : ∀ (seen : List Str) (rows : List Pair),
    (codesOf (zgbCleanAux seen rows)).Nodup ∧
    ∀ c ∈ codesOf (zgbCleanAux seen rows), c ∉ seen := by
  intro seen rows
  induction rows generalizing seen with
  | nil => exact ⟨List.nodup_nil, fun c h => absurd h (List.not_mem_nil c)⟩
  | cons p rest ih =>
    rw [zgbCleanAux_cons]
    cases hn : normalizeRec p.1 p.2 with
    | none =>
      simp only [hn]
      exact ih seen
    | some q0 =>
      simp only [hn]
      by_cases hs : q0.1 ∈ seen
      · rw [if_pos hs]
        exact ih seen
      · rw [if_neg hs]
        obtain ⟨hnd, hns⟩ := ih (q0.1 :: seen)
        constructor
        · refine List.nodup_cons.mpr ⟨?_, hnd⟩
          intro hmem
          exact hns q0.1 hmem (List.mem_cons_self _ _)
        · intro c hc
          rcases List.mem_cons.mp hc with hc | hc
          · rw [hc]; exact hs
          · intro hcs
            exact hns c hc (List.mem_cons_of_mem _ hcs)

theorem pyUpperFix_not_lower {d : Char} (h : pyUpperChar d = d) : isAsciiLower d = false := by
  by_contra hl
  have hlow : isAsciiLower d = true := Bool.not_eq_false _ ▸ (eq_true_of_ne_false (by
    intro hx
    exact hl hx))
  obtain ⟨h1, h2⟩ := (isAsciiLower_iff d).mp hlow
  have hval : (Char.ofNat (d.toNat - 32)).toNat = d.toNat - 32 :=
    charOfNat_toNat _ (by omega)
  unfold pyUpperChar at h
  rw [if_pos hlow] at h
  have := charEq_iff_toNat.mp h
  rw [hval] at this
  omega

theorem nfkcFix_no_fw {d : Char} (h : nfkcChar d = d) :
    isFWDigit d = false ∧ isFWUpper d = false ∧ isFWLower d = false := by
  have := nfkcChar_no_fw d
  rw [h] at this
  exact ⟨this.1, this.2.1, this.2.2.1⟩

theorem takeWhile_exact {p : Char → Bool} : ∀ (l1 l2 : Str), (∀ a ∈ l1, p a = true) →
    (∀ a t, l2 = a :: t → p a = false) → (l1 ++ l2).takeWhile p = l1
  | [], l2, _, h2 => by
    cases l2 with
    | nil => rfl
    | cons a t =>
      show (a :: t).takeWhile p = []
      rw [List.takeWhile_cons, if_neg (by simp [h2 a t rfl])]
  | c :: r, l2, h1, h2 => by
    show ((c :: (r ++ l2)).takeWhile p) = c :: r
    rw [List.takeWhile_cons, if_pos (h1 c (List.mem_cons_self c r))]
    exact congrArg _ (takeWhile_exact r l2 (fun a ha => h1 a (List.mem_cons_of_mem c ha)) h2)

theorem drop_takeWhile_len {p : Char → Bool} (s : Str) :
    s.drop (s.takeWhile p).length = s.dropWhile p := by
  have h := List.takeWhile_append_dropWhile (p := p) (l := s)
  nth_rewrite 2 [← h]
  rw [List.drop_left]

theorem fullmatchCode_iff (s : Str) : fullmatchCode s = true ↔
    (4 ≤ (s.takeWhile isDigitPy).length ∧ (s.takeWhile isDigitPy).length ≤ 6 ∧
     (s.dropWhile isDigitPy = [] ∨
      ∃ u, s.dropWhile isDigitPy = [u] ∧ isAsciiLetter u = true)) := by
  unfold fullmatchCode
  rw [drop_takeWhile_len]
  rcases hd : s.dropWhile isDigitPy with _ | ⟨u, _ | ⟨v, w⟩⟩ <;>
    simp [Bool.and_eq_true, decide_eq_true_eq, hd, and_assoc]

theorem fullmatchCodeAscii_iff (s : Str) : fullmatchCodeAscii s = true ↔
    (4 ≤ (s.takeWhile isAsciiDigit).length ∧ (s.takeWhile isAsciiDigit).length ≤ 6 ∧
     (s.dropWhile isAsciiDigit = [] ∨
      ∃ u, s.dropWhile isAsciiDigit = [u] ∧ isAsciiUpper u = true)) := by
  unfold fullmatchCodeAscii
  rw [drop_takeWhile_len]
  rcases hd : s.dropWhile isAsciiDigit with _ | ⟨u, _ | ⟨v, w⟩⟩ <;>
    simp [Bool.and_eq_true, decide_eq_true_eq, hd, and_assoc]

theorem asciiLetter_not_digit {u : Char} (h : isAsciiLetter u = true) :
    isAsciiDigit u = false := by
  rw [Bool.eq_false_iff]
  intro hd
  obtain ⟨h1, h2⟩ := (isAsciiDigit_iff u).mp hd
  rcases Bool.or_eq_true _ _ |>.mp h with hu | hu
  · obtain ⟨h3, h4⟩ := (isAsciiUpper_iff u).mp hu
    omega
  · obtain ⟨h3, h4⟩ := (isAsciiLower_iff u).mp hu
    omega

theorem dropWhile_exact {p : Char → Bool} : ∀ (l1 l2 : Str), (∀ a ∈ l1, p a = true) →
    (∀ a t, l2 = a :: t → p a = false) → (l1 ++ l2).dropWhile p = l2
  | [], l2, _, h2 => by
    cases l2 with
    | nil => rfl
    | cons a t =>
      show (a :: t).dropWhile p = a :: t
      rw [List.dropWhile_cons, if_neg (by simp [h2 a t rfl])]
  | c :: r, l2, h1, h2 => by
    show ((c :: (r ++ l2)).dropWhile p) = l2
    rw [List.dropWhile_cons, if_pos (h1 c (List.mem_cons_self c r))]
    exact dropWhile_exact r l2 (fun a ha => h1 a (List.mem_cons_of_mem c ha)) h2

theorem memOfMemTakeWhile {p : Char → Bool} {l : Str} {a : Char}
    (h : a ∈ l.takeWhile p) : a ∈ l := by
  have hx := List.takeWhile_append_dropWhile (p := p) (l := l)
  rw [← hx]
  exact List.mem_append_left _ h

theorem normCode_struct {c : Str} (h : fullmatchCode (normCode c) = true) :
    fullmatchCodeAscii (normCode c) = true := by
  obtain ⟨h1, h2, h3⟩ := (fullmatchCode_iff (normCode c)).mp h
  have hds : ∀ a ∈ (normCode c).takeWhile isDigitPy, isAsciiDigit a = true := by
    intro a ha
    have hdig := takeWhileAll a ha
    have hcanon := normCode_char (memOfMemTakeWhile ha)
    have hnofw := nfkcFix_no_fw hcanon.1
    unfold isDigitPy at hdig
    rcases Bool.or_eq_true _ _ |>.mp hdig with hx | hx
    · exact hx
    · rw [hnofw.1] at hx
      cases hx
  have hdw : ∀ a t, (normCode c).dropWhile isDigitPy = a :: t → isAsciiDigit a = false := by
    intro a t hat
    have hfail := dropWhileHeadFalse hat
    unfold isDigitPy at hfail
    exact (Bool.or_eq_false_iff.mp hfail).1
  have hsplit := List.takeWhile_append_dropWhile (p := isDigitPy) (l := normCode c)
  have htw : (normCode c).takeWhile isAsciiDigit = (normCode c).takeWhile isDigitPy := by
    conv_lhs => rw [← hsplit]
    exact takeWhile_exact _ _ hds hdw
  have hdw2 : (normCode c).dropWhile isAsciiDigit = (normCode c).dropWhile isDigitPy := by
    conv_lhs => rw [← hsplit]
    exact dropWhile_exact _ _ hds hdw
  refine (fullmatchCodeAscii_iff (normCode c)).mpr ⟨?_, ?_, ?_⟩
  · rw [htw]; exact h1
  · rw [htw]; exact h2
  · rw [hdw2]
    rcases h3 with h3 | ⟨u, hu, hlet⟩
    · exact Or.inl h3
    · refine Or.inr ⟨u, hu, ?_⟩
      have humem : u ∈ normCode c := by
        rw [← hsplit]
        apply List.mem_append_right
        rw [hu]
        exact List.mem_cons_self u []
      have hcanon := normCode_char humem
      have hnl := pyUpperFix_not_lower hcanon.2.1
      rcases Bool.or_eq_true _ _ |>.mp hlet with hx | hx
      · exact hx
      · rw [hnl] at hx
        cases hx

theorem wsFree_removeWS (s : Str) : wsFree (removeWS s) := by
  intro a ha
  have := (List.mem_filter.mp ha).2
  simpa using this

theorem normName_starFree (n : Str) : starFree (normName n) := by
  intro a ha
  have h2 := memOfMemPyStrip ha
  have := (List.mem_filter.mp h2).2
  simpa using this

theorem wsFree_normName {n : Str} (h : wsFree n) : wsFree (normName n) := by
  intro a ha
  have h2 := memOfMemPyStrip ha
  exact h a (List.mem_of_mem_filter h2)

theorem normalizeRec_shape {c n : Str} {q : Pair} (h : normalizeRec c n = some q) :
    q.1 = normCode c ∧ q.2 = normName n ∧ fullmatchCode (normCode c) = true := by
  unfold normalizeRec at h
  by_cases hm : fullmatchCode (normCode c) = true
  · rw [if_pos hm] at h
    cases h
    exact ⟨rfl, rfl, hm⟩
  · rw [if_neg hm] at h
    cases h

theorem zgbMethods_wsFree (seg : Str) (aT tR : List Str) (pT : Str) :
    ∀ r ∈ zgbMethod1 seg ++ zgbMethod2 aT ++ zgbMethod3 tR ++ zgbMethod4 pT,
      wsFree r.2 := by
  intro r hr
  rcases List.mem_append.mp hr with hr | hr4
  · rcases List.mem_append.mp hr with hr | hr3
    · rcases List.mem_append.mp hr with hr1 | hr2
      · obtain ⟨q, _, hq⟩ := List.mem_map.mp hr1
        rw [← hq]
        exact wsFree_removeWS q.2
      · obtain ⟨t, _, ht⟩ := List.mem_filterMap.mp hr2
        cases hm : zgbAMatch (t.map nbspToSpace) with
        | none => rw [hm] at ht; cases ht
        | some q =>
          rw [hm] at ht
          cases ht
          exact wsFree_removeWS q.2
    · obtain ⟨t, _, ht⟩ := List.mem_filterMap.mp hr3
      cases hm : rcnSearch t with
      | none => rw [hm] at ht; cases ht
      | some q =>
        rw [hm] at ht
        cases ht
        exact wsFree_removeWS q.2
  · obtain ⟨q, _, hq⟩ := List.mem_map.mp hr4
    rw [← hq]
    exact wsFree_removeWS q.2

theorem reCodeFirstAux_some : ∀ (s : Str) (b : Bool) (c : Str),
    reCodeFirstAux b s = some c →
    4 ≤ c.length ∧ c.length ≤ 6 ∧ ∀ a ∈ c, isDigitPy a = true := by
  intro s
  induction s with
  | nil => intro b c h; cases h
  | cons d rest ih =>
    intro b c h
    unfold reCodeFirstAux at h
    by_cases h1 : (!b && isDigitPy d) = true
    · rw [if_pos h1] at h
      by_cases h2 : (4 ≤ ((d :: rest).takeWhile isDigitPy).length &&
          ((d :: rest).takeWhile isDigitPy).length ≤ 6) = true
      · rw [if_pos h2] at h
        injection h with h
        obtain ⟨hl1, hl2⟩ := Bool.and_eq_true _ _ |>.mp h2
        refine ⟨by rw [← h]; exact of_decide_eq_true hl1,
          by rw [← h]; exact of_decide_eq_true hl2, ?_⟩
        intro a ha
        rw [← h] at ha
        exact takeWhileAll a ha
      · rw [if_neg h2] at h
        exact ih _ c h
    · rw [if_neg h1] at h
      exact ih _ c h

theorem genericPost_record (d0 : DF) : ∀ p ∈ genericPost d0, genericRecordOK p := by
  intro p hp
  have hp2 := mem_dropDupAux _ _ p hp
  obtain ⟨q, _, hfq⟩ := List.mem_filterMap.mp hp2
  cases hrc : reCodeFirst q.1 with
  | none =>
    rw [hrc] at hfq
    cases hfq
  | some c0 =>
    rw [hrc] at hfq
    cases hfq
    obtain ⟨hl1, hl2, hd⟩ := reCodeFirstAux_some _ _ _ hrc
    exact ⟨⟨hl1, hl2, hd⟩, wsFree_removeWS q.2⟩

theorem tryStrat_ok (res : Option DF) (next : Except Str DF) (df : DF)
    (h : tryStrat res next = Except.ok df) :
    (∃ d0, df = genericPost d0) ∨ next = Except.ok df := by
  cases res with
  | none => exact Or.inr h
  | some d =>
    have h2 : (if d = [] then next else Except.ok (genericPost d)) = Except.ok df := h
    by_cases hd : d = []
    · rw [if_pos hd] at h2
      exact Or.inr h2
    · rw [if_neg hd] at h2
      injection h2 with h2
      exact Or.inl ⟨d, h2.symm⟩

theorem parse_ok_post (oc tb : Str → Option DF) (html : Str) (df : DF)
    (h : parse_codes_generic oc tb html = Except.ok df) : ∃ d0, df = genericPost d0 := by
  unfold parse_codes_generic at h
  rcases tryStrat_ok _ _ _ h with h1 | h1
  · exact h1
  rcases tryStrat_ok _ _ _ h1 with h2 | h2
  · exact h2
  rcases tryStrat_ok _ _ _ h2 with h3 | h3
  · exact h3
  · cases h3

/-- The amended claim C5: on the dual-sided path every stored record has a
canonical halfwidth uppercase code and a star-free, whitespace-free name;
on the generic path the stored code is a bare 4-6 (possibly fullwidth)
digit run and only whitespace is removed from the name — asterisks are
retained and no fullwidth or case normalization is applied there. -/
theorem C5_amended :
    (∀ (aT tR : Str → List Str) (pT : Str → Str) (html side : Str) (df : DF),
       extract_zgb_side aT tR pT html side = Except.ok df →
       ∀ p ∈ df, zgbRecordOK p) ∧
    (∀ (oc tb : Str → Option DF) (html : Str) (df : DF),
       parse_codes_generic oc tb html = Except.ok df →
       ∀ p ∈ df, genericRecordOK p) := by
  constructor
  · intro aT tR pT html side df h p hp
    unfold extract_zgb_side at h
    cases hseg : segmentZgb html side with
    | error e => rw [hseg] at h; cases h
    | ok seg =>
      rw [hseg] at h
      have h2 : (if zgbMethod1 seg ++ zgbMethod2 (aT seg) ++ zgbMethod3 (tR seg) ++
          zgbMethod4 (pT seg) = [] then
            (Except.error (errZgbEmpty side) : Except Str DF)
          else Except.ok (zgbClean (zgbMethod1 seg ++ zgbMethod2 (aT seg) ++
            zgbMethod3 (tR seg) ++ zgbMethod4 (pT seg)))) = Except.ok df := h
      by_cases hrows : zgbMethod1 seg ++ zgbMethod2 (aT seg) ++ zgbMethod3 (tR seg) ++
          zgbMethod4 (pT seg) = []
      · rw [if_pos hrows] at h2
        cases h2
      · rw [if_neg hrows] at h2
        injection h2 with h2
        rw [← h2] at hp
        obtain ⟨r, hrmem, hnorm⟩ := mem_zgbCleanAux [] _ p hp
        obtain ⟨hq1, hq2, hfm⟩ := normalizeRec_shape hnorm
        refine ⟨by rw [hq1]; exact normCode_struct hfm, ?_, ?_⟩
        · rw [hq2]
          exact normName_starFree r.2
        · rw [hq2]
          exact wsFree_normName (zgbMethods_wsFree seg (aT seg) (tR seg) (pT seg) r hrmem)
  · intro oc tb html df h p hp
    obtain ⟨d0, rfl⟩ := parse_ok_post oc tb html df h
    exact genericPost_record d0 p hp

/-- Counterexample to claim C5 as stated: on the generic path the scraper
stores a fullwidth code verbatim (no halfwidth normalization) and keeps
the asterisk in the name. -/
theorem C5_counterexample :
    parse_codes_generic (fun _ => none) (fun _ => none)
      "GenLink2stk('１２３４５','ＴＳＭＣ*')".toList =
      Except.ok [("１２３４５".toList, "ＴＳＭＣ*".toList)] ∧
    ¬ specRecordOK ("１２３４５".toList, "ＴＳＭＣ*".toList) := by
  refine ⟨by rfl, ?_⟩
  intro h
  exact (h.2.2 '*' (by decide)) rfl

/-- Witness for C5's amended theorem at a concrete dual-sided page. -/
theorem C5_witness :
    extract_zgb_side (fun _ => []) (fun _ => []) (fun seg => pyStrip seg)
      ">買超< ('2330','tsmc') 8069 Elem".toList "買超".toList =
      Except.ok [("2330".toList, "tsmc".toList), ("8069".toList, "Elem".toList)] ∧
    zgbRecordOK ("2330".toList, "tsmc".toList) :=
  ⟨by rfl,
    C5_amended.1 (fun _ => []) (fun _ => []) (fun seg => pyStrip seg)
      ">買超< ('2330','tsmc') 8069 Elem".toList "買超".toList
      [("2330".toList, "tsmc".toList), ("8069".toList, "Elem".toList)] (by rfl)
      ("2330".toList, "tsmc".toList) (by decide)⟩

theorem codesValid_cons (p : Pair) (rest : List Pair) :
    codesValid (p :: rest) =
      match normalizeRec p.1 p.2 with
      | none => codesValid rest
      | some q => q.1 :: codesValid rest := by
  unfold codesValid
  rw [List.filterMap_cons]
  cases hn : normalizeRec p.1 p.2 <;> simp [hn]

theorem length_zgbCleanAux : ∀ (seen : List Str) (rows : List Pair),
    (zgbCleanAux seen rows).length =
      ((codesValid rows).toFinset \ seen.toFinset).card := by
  intro seen rows
  induction rows generalizing seen with
  | nil => simp [zgbCleanAux, codesValid]
  | cons p rest ih =>
    rw [zgbCleanAux_cons, codesValid_cons]
    cases hn : normalizeRec p.1 p.2 with
    | none => exact ih seen
    | some q0 =>
      show (if q0.1 ∈ seen then zgbCleanAux seen rest
          else q0 :: zgbCleanAux (q0.1 :: seen) rest).length =
        (((q0.1 :: codesValid rest).toFinset : Finset Str) \ seen.toFinset).card
      rw [List.toFinset_cons]
      by_cases hs : q0.1 ∈ seen
      · rw [if_pos hs, ih seen]
        congr 1
        ext x
        by_cases hx : x = q0.1 <;> simp [hx, hs]
      · rw [if_neg hs, List.length_cons, ih (q0.1 :: seen)]
        have hid : insert q0.1 ((codesValid rest).toFinset) \ seen.toFinset =
            insert q0.1 ((codesValid rest).toFinset \ (q0.1 :: seen).toFinset) := by
          ext x
          by_cases hx : x = q0.1 <;> simp [hx, hs]
        rw [hid, Finset.card_insert_of_not_mem (by simp)]

/-- The amended claim C6: on the dual-sided path no two records share a
code (first normalized occurrence wins) and the record count equals the
number of distinct normalized codes; on the generic path only exact
duplicate `(code, name)` rows are dropped, so records sharing a code but
differing in name may coexist. -/
theorem C6_amended :
    (∀ rows : List Pair,
       (codesOf (zgbClean rows)).Nodup ∧
       (zgbClean rows).length = (codesValid rows).toFinset.card) ∧
    (∀ d0 : DF, (genericPost d0).Nodup) := by
  constructor
  · intro rows
    refine ⟨(nodup_codes_zgbCleanAux [] rows).1, ?_⟩
    have h := length_zgbCleanAux [] rows
    simpa using h
  · intro d0
    show (dropDupAux [] _).Nodup
    exact (dropDupAux_nodup [] _).1

/-- Counterexample to claim C6 as stated: on the generic path two records
with the same code and different names are both stored, so the dedup
invariant `len(records) == #distinct codes` fails. -/
theorem C6_counterexample :
    parse_codes_generic (fun _ => none) (fun _ => none)
      "GenLink2stk('2330','AAA')GenLink2stk('2330','BBB')".toList =
      Except.ok [("2330".toList, "AAA".toList), ("2330".toList, "BBB".toList)] ∧
    ¬ (codesOf [(("2330".toList : Str), "AAA".toList),
        ("2330".toList, "BBB".toList)]).Nodup :=
  ⟨by rfl, by decide⟩

/-- Counterexample to claim C4 as stated: on the segmented path the JS
call-pattern method yields a non-empty result, yet the plain-text method's
pair is also present in the final frame — the methods are merged, not
first-non-empty. -/
theorem C4_counterexample :
    segmentZgb ">買超< ('2330','tsmc') 8069 Elem".toList "買超".toList =
      Except.ok ">買超< ('2330','tsmc') 8069 Elem".toList ∧
    zgbMethod1 ">買超< ('2330','tsmc') 8069 Elem".toList =
      [("2330".toList, "tsmc".toList)] ∧
    zgbMethod4 (pyStrip ">買超< ('2330','tsmc') 8069 Elem".toList) =
      [("8069".toList, "Elem".toList)] ∧
    extract_zgb_side (fun _ => []) (fun _ => []) (fun seg => pyStrip seg)
      ">買超< ('2330','tsmc') 8069 Elem".toList "買超".toList =
      Except.ok [("2330".toList, "tsmc".toList), ("8069".toList, "Elem".toList)] :=
  ⟨by rfl, by rfl, by rfl, by rfl⟩

/-- The amended claim C4: the segmented path runs its own four extraction
methods over the substring and merges all their raw pairs before the
code-level dedup; in particular a valid pair found by the plain-text
method appears in the output alongside a valid pair found by the JS
call-pattern method. -/
theorem C4_amended (aT tR : Str → List Str) (pT : Str → Str) (html side seg : Str)
    (hseg : segmentZgb html side = Except.ok seg)
    (p1 p4 : Pair) (h1 : p1 ∈ zgbMethod1 seg) (h4 : p4 ∈ zgbMethod4 (pT seg))
    (q1 q4 : Pair) (hn1 : normalizeRec p1.1 p1.2 = some q1)
    (hn4 : normalizeRec p4.1 p4.2 = some q4) :
    ∃ df, extract_zgb_side aT tR pT html side = Except.ok df ∧
      q1.1 ∈ codesOf df ∧ q4.1 ∈ codesOf df := by
  have hp1r : p1 ∈ zgbMethod1 seg ++ zgbMethod2 (aT seg) ++ zgbMethod3 (tR seg) ++
      zgbMethod4 (pT seg) :=
    List.mem_append_left _ (List.mem_append_left _ (List.mem_append_left _ h1))
  have hp4r : p4 ∈ zgbMethod1 seg ++ zgbMethod2 (aT seg) ++ zgbMethod3 (tR seg) ++
      zgbMethod4 (pT seg) :=
    List.mem_append_right _ h4
  have hrowsne : zgbMethod1 seg ++ zgbMethod2 (aT seg) ++ zgbMethod3 (tR seg) ++
      zgbMethod4 (pT seg) ≠ [] := by
    intro hx
    rw [hx] at hp1r
    exact absurd hp1r (List.not_mem_nil _)
  refine ⟨zgbClean (zgbMethod1 seg ++ zgbMethod2 (aT seg) ++ zgbMethod3 (tR seg) ++
      zgbMethod4 (pT seg)), ?_, ?_, ?_⟩
  · unfold extract_zgb_side
    rw [hseg]
    show (if zgbMethod1 seg ++ zgbMethod2 (aT seg) ++ zgbMethod3 (tR seg) ++
        zgbMethod4 (pT seg) = [] then (Except.error (errZgbEmpty side) : Except Str DF)
      else Except.ok (zgbClean _)) = _
    rw [if_neg hrowsne]
  · unfold zgbClean
    rw [mem_codes_zgbCleanAux]
    exact ⟨List.not_mem_nil _, p1, hp1r, by rw [hn1]; rfl⟩
  · unfold zgbClean
    rw [mem_codes_zgbCleanAux]
    exact ⟨List.not_mem_nil _, p4, hp4r, by rw [hn4]; rfl⟩

/-- Witness for C4's amended theorem at the concrete merged page. -/
theorem C4_witness :
    ∃ df, extract_zgb_side (fun _ => []) (fun _ => []) (fun seg => pyStrip seg)
      ">買超< ('2330','tsmc') 8069 Elem".toList "買超".toList = Except.ok df ∧
      "2330".toList ∈ codesOf df ∧ "8069".toList ∈ codesOf df :=
  C4_amended (fun _ => []) (fun _ => []) (fun seg => pyStrip seg)
    ">買超< ('2330','tsmc') 8069 Elem".toList "買超".toList
    ">買超< ('2330','tsmc') 8069 Elem".toList (by rfl)
    ("2330".toList, "tsmc".toList) ("8069".toList, "Elem".toList)
    (by decide) (by decide)
    ("2330".toList, "tsmc".toList) ("8069".toList, "Elem".toList)
    (by decide) (by decide)

theorem scanFirst_some {p : Str → Bool} : ∀ (s : Str) (i : Nat), scanFirst p s = some i →
    p (s.drop i) = true ∧ ∀ j, j < i → p (s.drop j) = false := by
  intro s
  induction s with
  | nil =>
    intro i h
    unfold scanFirst at h
    by_cases hp : p [] = true
    · rw [if_pos hp] at h
      injection h with h
      subst h
      exact ⟨hp, fun j hj => absurd hj (Nat.not_lt_zero j)⟩
    · rw [if_neg hp] at h
      cases h
  | cons c t ih =>
    intro i h
    unfold scanFirst at h
    by_cases hp : p (c :: t) = true
    · rw [if_pos hp] at h
      injection h with h
      subst h
      exact ⟨hp, fun j hj => absurd hj (Nat.not_lt_zero j)⟩
    · rw [if_neg hp] at h
      cases hsc : scanFirst p t with
      | none =>
        rw [hsc] at h
        cases h
      | some i0 =>
        rw [hsc, Option.map_some'] at h
        injection h with h
        subst h
        obtain ⟨ha, hb⟩ := ih i0 hsc
        refine ⟨ha, ?_⟩
        intro j hj
        cases j with
        | zero => exact Bool.eq_false_iff.mpr hp
        | succ j0 => exact hb j0 (by omega)

theorem scanFirst_none {p : Str → Bool} : ∀ s : Str, scanFirst p s = none →
    ∀ i, p (s.drop i) = false := by
  intro s
  induction s with
  | nil =>
    intro h i
    unfold scanFirst at h
    by_cases hp : p [] = true
    · rw [if_pos hp] at h
      cases h
    · have hd : ([] : Str).drop i = [] := by simp
      rw [hd]
      exact Bool.eq_false_iff.mpr hp
  | cons c t ih =>
    intro h i
    unfold scanFirst at h
    by_cases hp : p (c :: t) = true
    · rw [if_pos hp] at h
      cases h
    · rw [if_neg hp] at h
      cases hsc : scanFirst p t with
      | some i0 =>
        rw [hsc] at h
        cases h
      | none =>
        cases i with
        | zero => exact Bool.eq_false_iff.mpr hp
        | succ j => exact ih hsc j

theorem isStartOf_iff : ∀ (pat r : Str), isStartOf pat r = true ↔ ∃ rest, r = pat ++ rest
  | [], r => by
    simp only [isStartOf, List.nil_append]
    exact ⟨fun _ => ⟨r, rfl⟩, fun _ => trivial⟩
  | a :: as, [] => by
    simp [isStartOf]
  | a :: as, b :: bs => by
    show (decide (a = b) && isStartOf as bs) = true ↔ _
    rw [Bool.and_eq_true, decide_eq_true_eq, isStartOf_iff as bs]
    constructor
    · rintro ⟨hab, rest, hbs⟩
      exact ⟨rest, by rw [hab, hbs]; rfl⟩
    · rintro ⟨rest, heq⟩
      injection heq with h1 h2
      exact ⟨h1.symm, rest, h2⟩

theorem exact_tolerant {side r : Str} (hs : side = strBuy ∨ side = strSell)
    (h : isStartOf (exactMarker side) r = true) : tolerantAt side r = true := by
  obtain ⟨rest, hr⟩ := (isStartOf_iff _ _).mp h
  rcases hs with hs | hs
  · subst hs
    rw [hr]
    rfl
  · subst hs
    rw [hr]
    rfl

theorem segEnd_spec (html side : Str) (start : Nat) (seg : Str)
    (h : (match (scanFirst (fun r => isStartOf
            (exactMarker (if side = strBuy then strSell else strBuy)) r)
            ((collapseWS html).drop (start + 1))).map (· + (start + 1)) with
          | some e => Except.ok (((collapseWS html).drop start).take (e - start))
          | none => (Except.ok ((collapseWS html).drop start) : Except Str Str)) =
        Except.ok seg) :
    (∃ e2, start < e2 ∧
       isStartOf (exactMarker (if side = strBuy then strSell else strBuy))
         ((collapseWS html).drop e2) = true ∧
       (∀ j, start < j → j < e2 →
         isStartOf (exactMarker (if side = strBuy then strSell else strBuy))
           ((collapseWS html).drop j) = false) ∧
       seg = ((collapseWS html).drop start).take (e2 - start)) ∨
    ((∀ j, start < j →
        isStartOf (exactMarker (if side = strBuy then strSell else strBuy))
          ((collapseWS html).drop j) = false) ∧
     seg = (collapseWS html).drop start) := by
  cases hO : scanFirst (fun r => isStartOf
      (exactMarker (if side = strBuy then strSell else strBuy)) r)
      ((collapseWS html).drop (start + 1)) with
  | some e0 =>
    rw [hO, Option.map_some'] at h
    have h2 : Except.ok (((collapseWS html).drop start).take ((e0 + (start + 1)) - start)) =
        Except.ok seg := h
    left
    refine ⟨e0 + (start + 1), by omega, ?_, ?_, ?_⟩
    · have hx := (scanFirst_some _ e0 hO).1
      rw [List.drop_drop] at hx
      have harith : start + 1 + e0 = e0 + (start + 1) := by omega
      rw [harith] at hx
      exact hx
    · intro j hj1 hj2
      have hm := (scanFirst_some _ e0 hO).2 (j - (start + 1)) (by omega)
      rw [List.drop_drop] at hm
      have harith : start + 1 + (j - (start + 1)) = j := by omega
      rw [harith] at hm
      exact hm
    · injection h2 with h2
      exact h2.symm
  | none =>
    rw [hO] at h
    have h2 : Except.ok ((collapseWS html).drop start) = Except.ok seg := h
    right
    refine ⟨?_, ?_⟩
    · intro j hj
      have hm := scanFirst_none _ hO (j - (start + 1))
      rw [List.drop_drop] at hm
      have harith : start + 1 + (j - (start + 1)) = j := by omega
      rw [harith] at hm
      exact hm
    · injection h2 with h2
      exact h2.symm

theorem segmentZgb_ok_of_start (html side : Str) (i : Nat)
    (hstart : (match scanFirst (fun r => isStartOf (exactMarker side) r) (collapseWS html) with
               | some k => some k
               | none => scanFirst (tolerantAt side) (collapseWS html)) = some i) :
    ∃ seg, segmentZgb html side = Except.ok seg := by
  unfold segmentZgb
  rw [hstart]
  show ∃ seg, (match (scanFirst (fun r => isStartOf
      (exactMarker (if side = strBuy then strSell else strBuy)) r)
      ((collapseWS html).drop (i + 1))).map (· + (i + 1)) with
    | some e => Except.ok (((collapseWS html).drop i).take (e - i))
    | none => (Except.ok ((collapseWS html).drop i) : Except Str Str)) = Except.ok seg
  cases hO : scanFirst (fun r => isStartOf
      (exactMarker (if side = strBuy then strSell else strBuy)) r)
      ((collapseWS html).drop (i + 1)) with
  | some e0 =>
    exact ⟨_, rfl⟩
  | none =>
    exact ⟨_, rfl⟩

/-- The amended claim C8: the segmenter first looks for the exact marker
`>side<` anywhere in the whitespace-collapsed document and only when no
exact occurrence exists does it fall back to the first whitespace-tolerant
occurrence (so an exact marker beats an earlier spaced one); the segment
runs from that start to the next exact occurrence of the opposite marker
(whitespace tolerance is not applied to the end marker), or to the end of
the document; `SegmentNotFound` is raised iff no whitespace-tolerant
occurrence of the requested marker exists anywhere. -/
theorem C8_amended (html side : Str) (hs : side = strBuy ∨ side = strSell) :
    ((∃ e, segmentZgb html side = Except.error e) ↔
      ∀ i, tolerantAt side ((collapseWS html).drop i) = false) ∧
    (∀ seg, segmentZgb html side = Except.ok seg →
      ∃ start,
        ((isStartOf (exactMarker side) ((collapseWS html).drop start) = true ∧
          ∀ j, j < start →
            isStartOf (exactMarker side) ((collapseWS html).drop j) = false) ∨
         ((∀ i, isStartOf (exactMarker side) ((collapseWS html).drop i) = false) ∧
          tolerantAt side ((collapseWS html).drop start) = true ∧
          ∀ j, j < start → tolerantAt side ((collapseWS html).drop j) = false)) ∧
        ((∃ e2, start < e2 ∧
            isStartOf (exactMarker (if side = strBuy then strSell else strBuy))
              ((collapseWS html).drop e2) = true ∧
            (∀ j, start < j → j < e2 →
              isStartOf (exactMarker (if side = strBuy then strSell else strBuy))
                ((collapseWS html).drop j) = false) ∧
            seg = ((collapseWS html).drop start).take (e2 - start)) ∨
         ((∀ j, start < j →
             isStartOf (exactMarker (if side = strBuy then strSell else strBuy))
               ((collapseWS html).drop j) = false) ∧
          seg = (collapseWS html).drop start))) := by
  constructor
  · constructor
    · rintro ⟨e, he⟩ i
      by_contra htol
      have htol2 : tolerantAt side ((collapseWS html).drop i) = true := by
        cases hx : tolerantAt side ((collapseWS html).drop i) with
        | true => rfl
        | false => rw [hx] at htol; exact absurd rfl htol
      have hstart : ∃ k,
          (match scanFirst (fun r => isStartOf (exactMarker side) r) (collapseWS html) with
           | some k => some k
           | none => scanFirst (tolerantAt side) (collapseWS html)) = some k := by
        cases hE : scanFirst (fun r => isStartOf (exactMarker side) r) (collapseWS html) with
        | some k => exact ⟨k, rfl⟩
        | none =>
          cases hT : scanFirst (tolerantAt side) (collapseWS html) with
          | some k => exact ⟨k, rfl⟩
          | none => exact absurd (scanFirst_none _ hT i) (by rw [htol2]; simp)
      obtain ⟨k, hstart⟩ := hstart
      obtain ⟨seg, hok⟩ := segmentZgb_ok_of_start html side k hstart
      rw [hok] at he
      cases he
    · intro hall
      have hE : scanFirst (fun r => isStartOf (exactMarker side) r) (collapseWS html) = none := by
        cases hE : scanFirst (fun r => isStartOf (exactMarker side) r) (collapseWS html) with
        | none => rfl
        | some i =>
          have hx := exact_tolerant hs (scanFirst_some _ i hE).1
          rw [hall i] at hx
          cases hx
      have hT : scanFirst (tolerantAt side) (collapseWS html) = none := by
        cases hT : scanFirst (tolerantAt side) (collapseWS html) with
        | none => rfl
        | some i =>
          have hx := (scanFirst_some _ i hT).1
          rw [hall i] at hx
          cases hx
      refine ⟨errSeg side, ?_⟩
      unfold segmentZgb
      rw [hE, hT]
  · intro seg hseg
    unfold segmentZgb at hseg
    cases hE : scanFirst (fun r => isStartOf (exactMarker side) r) (collapseWS html) with
    | some i =>
      rw [hE] at hseg
      have hseg2 : (match (scanFirst (fun r => isStartOf
            (exactMarker (if side = strBuy then strSell else strBuy)) r)
            ((collapseWS html).drop (i + 1))).map (· + (i + 1)) with
          | some e => Except.ok (((collapseWS html).drop i).take (e - i))
          | none => (Except.ok ((collapseWS html).drop i) : Except Str Str)) =
          Except.ok seg := hseg
      exact ⟨i, Or.inl ⟨(scanFirst_some _ i hE).1, (scanFirst_some _ i hE).2⟩,
        segEnd_spec html side i seg hseg2⟩
    | none =>
      rw [hE] at hseg
      cases hT : scanFirst (tolerantAt side) (collapseWS html) with
      | some i =>
        rw [hT] at hseg
        have hseg2 : (match (scanFirst (fun r => isStartOf
              (exactMarker (if side = strBuy then strSell else strBuy)) r)
              ((collapseWS html).drop (i + 1))).map (· + (i + 1)) with
            | some e => Except.ok (((collapseWS html).drop i).take (e - i))
            | none => (Except.ok ((collapseWS html).drop i) : Except Str Str)) =
            Except.ok seg := hseg
        exact ⟨i, Or.inr ⟨fun k => scanFirst_none _ hE k, (scanFirst_some _ i hT).1,
          (scanFirst_some _ i hT).2⟩, segEnd_spec html side i seg hseg2⟩
      | none =>
        rw [hT] at hseg
        have hbad : (Except.error (errSeg side) : Except Str Str) = Except.ok seg := hseg
        cases hbad

/-- Counterexample to claim C8 as stated: with an earlier
whitespace-spaced marker and a later exact marker, the code starts the
segment at the later exact occurrence, not at the first
whitespace-tolerant occurrence the claim requires. -/
theorem C8_counterexample :
    claimSegment "> 買超 <AAA>買超<BBB".toList strBuy =
      some (collapseWS "> 買超 <AAA>買超<BBB".toList) ∧
    tolerantAt strBuy (collapseWS "> 買超 <AAA>買超<BBB".toList) = true ∧
    segmentZgb "> 買超 <AAA>買超<BBB".toList strBuy = Except.ok ">買超<BBB".toList ∧
    ">買超<BBB".toList ≠ collapseWS "> 買超 <AAA>買超<BBB".toList :=
  ⟨rfl, rfl, rfl, by decide⟩

/-- Witness for C8's amended theorem at a concrete side label. -/
theorem C8_witness :
    (∃ e, segmentZgb "AAA".toList strBuy = Except.error e) ↔
      ∀ i, tolerantAt strBuy ((collapseWS "AAA".toList).drop i) = false :=
  (C8_amended "AAA".toList strBuy (Or.inl rfl)).1
